import Mathlib

/-!
Verification of the Psiv2-Tracking tracking engine.

This file gives a shallow embedding, in Lean 4, of the tracking core of the
repository (src/utilities.py, src/tracker.py, src/OCCLUSION/car.py,
src/OCCLUSION/improved_tracker.py) and proves or refutes the frozen claims
about it.

Modelling conventions:
* Python machine floats are modelled by exact rationals (ℚ).  All float
  literals of the source (0.05, 0.3, 0.8, 1e-9, ...) are carried over as the
  exact rationals they denote.
* Bounding boxes are integer 4-tuples (x1, y1, x2, y2), as in the source.
* Euclidean distances (math.hypot) are irrational in general; every use in
  the embedded code is a comparison of a distance against a threshold, and is
  embedded by the equivalent square-free comparison on the squared distance
  (see sqrtLt / sqrtGt below).
* Python dicts with integer keys are modelled as association lists
  (List (Nat × Car)); dict iteration order is insertion order, which the
  association-list order models.
-/

namespace Tracking

/-- Axis-aligned box (x1, y1, x2, y2) in integer pixel coordinates,
as in `BBox = Tuple[int, int, int, int]` of the source. -/
abbrev BBox : Type := ℤ × ℤ × ℤ × ℤ

/-- Detection: a box together with a confidence, as the `(bbox, conf)` pairs of
the source. -/
abbrev Det : Type := BBox × ℚ

/-- Epsilon added to the IoU denominator in src/utilities.py line 25
(`+ 1e-9`). -/
def iouEps : ℚ := 1 / 1000000000

/-- Intersection width/height helper: the overlap of boxes on one axis. -/
def interLen (a1 a2 b1 b2 : ℤ) : ℤ := max 0 (min a2 b2 - max a1 b1)

/-- Area of a box, `(x2 - x1) * (y2 - y1)`, as computed in src/utilities.py
lines 23-24 (may be negative for a malformed box, exactly as in the source). -/
def boxArea (b : BBox) : ℤ := (b.2.2.1 - b.1) * (b.2.2.2 - b.2.1)

/-- Intersection area of two boxes, as src/utilities.py lines 14-20. -/
def interArea (a b : BBox) : ℤ :=
  interLen a.1 a.2.2.1 b.1 b.2.2.1 * interLen a.2.1 a.2.2.2 b.2.1 b.2.2.2

/-- Embedding of `iou` (src/utilities.py lines 13-25): returns 0 when the
intersection is empty, otherwise inter / (areaA + areaB - inter + 1e-9). -/
def iou (a b : BBox) : ℚ :=
  let inter : ℤ := interArea a b
  if inter = 0 then 0
  else (inter : ℚ) / ((boxArea a : ℚ) + (boxArea b : ℚ) - (inter : ℚ) + iouEps)

/-- Embedding of `bbox_center` (src/utilities.py lines 27-29). -/
def bboxCenter (b : BBox) : ℚ × ℚ :=
  ((1 / 2 : ℚ) * ((b.1 : ℚ) + (b.2.2.1 : ℚ)), (1 / 2 : ℚ) * ((b.2.1 : ℚ) + (b.2.2.2 : ℚ)))

/-- Squared Euclidean distance between two points.  The source computes
`math.hypot dx dy`; every use compares it against a threshold, and those
comparisons are embedded square-free via sqrtLt / sqrtGt. -/
def distSq (p q : ℚ × ℚ) : ℚ := (p.1 - q.1) ^ 2 + (p.2 - q.2) ^ 2

/-- Boolean test `Real.sqrt d < r` for d ≥ 0, expressed without square roots:
sqrt d < r iff 0 < r and d < r². -/
def sqrtLt (d r : ℚ) : Bool := decide (0 < r) && decide (d < r * r)

/-- Boolean test `r < Real.sqrt d` for d ≥ 0, expressed without square roots:
r < sqrt d iff r < 0 or r² < d. -/
def sqrtGt (d r : ℚ) : Bool := decide (r < 0) || decide (r * r < d)

section IouFacts

/-- A positive intersection forces both boxes to be proper and bounds the
intersection by each area. -/
theorem interArea_le_boxArea (a b : BBox) (h : 0 < interArea a b) :
    interArea a b ≤ boxArea a ∧ interArea a b ≤ boxArea b := by
  have hw : 0 < interLen a.1 a.2.2.1 b.1 b.2.2.1 := by
    by_contra hc
    push_neg at hc
    have h0 : 0 ≤ interLen a.1 a.2.2.1 b.1 b.2.2.1 := le_max_left _ _
    have : interLen a.1 a.2.2.1 b.1 b.2.2.1 = 0 := le_antisymm hc h0
    simp [interArea, this] at h
  have hh : 0 < interLen a.2.1 a.2.2.2 b.2.1 b.2.2.2 := by
    by_contra hc
    push_neg at hc
    have h0 : 0 ≤ interLen a.2.1 a.2.2.2 b.2.1 b.2.2.2 := le_max_left _ _
    have : interLen a.2.1 a.2.2.2 b.2.1 b.2.2.2 = 0 := le_antisymm hc h0
    simp [interArea, this] at h
  have hw' : 0 < min a.2.2.1 b.2.2.1 - max a.1 b.1 := by
    rcases lt_max_iff.mp hw with h1 | h1
    · exact absurd h1 (lt_irrefl 0)
    · exact h1
  have hh' : 0 < min a.2.2.2 b.2.2.2 - max a.2.1 b.2.1 := by
    rcases lt_max_iff.mp hh with h1 | h1
    · exact absurd h1 (lt_irrefl 0)
    · exact h1
  have hwle := sub_le_sub (min_le_left a.2.2.1 b.2.2.1) (le_max_left a.1 b.1)
  have hwle' := sub_le_sub (min_le_right a.2.2.1 b.2.2.1) (le_max_right a.1 b.1)
  have hhle := sub_le_sub (min_le_left a.2.2.2 b.2.2.2) (le_max_left a.2.1 b.2.1)
  have hhle' := sub_le_sub (min_le_right a.2.2.2 b.2.2.2) (le_max_right a.2.1 b.2.1)
  have hwa : interLen a.1 a.2.2.1 b.1 b.2.2.1 ≤ a.2.2.1 - a.1 :=
    max_le (by linarith) hwle
  have hha : interLen a.2.1 a.2.2.2 b.2.1 b.2.2.2 ≤ a.2.2.2 - a.2.1 :=
    max_le (by linarith) hhle
  have hwb : interLen a.1 a.2.2.1 b.1 b.2.2.1 ≤ b.2.2.1 - b.1 :=
    max_le (by linarith) hwle'
  have hhb : interLen a.2.1 a.2.2.2 b.2.1 b.2.2.2 ≤ b.2.2.2 - b.2.1 :=
    max_le (by linarith) hhle'
  constructor
  · calc interArea a b ≤ (a.2.2.1 - a.1) * interLen a.2.1 a.2.2.2 b.2.1 b.2.2.2 := by
          exact mul_le_mul_of_nonneg_right hwa (le_of_lt hh)
    _ ≤ (a.2.2.1 - a.1) * (a.2.2.2 - a.2.1) := by
          apply mul_le_mul_of_nonneg_left hha
          linarith [lt_of_lt_of_le hw hwa]
    _ = boxArea a := rfl
  · calc interArea a b ≤ (b.2.2.1 - b.1) * interLen a.2.1 a.2.2.2 b.2.1 b.2.2.2 := by
          exact mul_le_mul_of_nonneg_right hwb (le_of_lt hh)
    _ ≤ (b.2.2.1 - b.1) * (b.2.2.2 - b.2.1) := by
          apply mul_le_mul_of_nonneg_left hhb
          linarith [lt_of_lt_of_le hw hwb]
    _ = boxArea b := rfl

/-- Symmetry of the one-axis overlap. -/
theorem interLen_comm (a1 a2 b1 b2 : ℤ) : interLen a1 a2 b1 b2 = interLen b1 b2 a1 a2 := by
  unfold interLen
  rw [min_comm a2 b2, max_comm a1 b1]

/-- Symmetry of the intersection area. -/
theorem interArea_comm (a b : BBox) : interArea a b = interArea b a := by
  unfold interArea
  rw [interLen_comm a.1 a.2.2.1 b.1 b.2.2.1, interLen_comm a.2.1 a.2.2.2 b.2.1 b.2.2.2]

/-- IoU is symmetric in its two arguments. -/
theorem iou_comm (a b : BBox) : iou a b = iou b a := by
  unfold iou
  rw [interArea_comm a b]
  rcases eq_or_ne (interArea b a) 0 with h | h
  · simp [h]
  · simp only [h, if_false]
    ring_nf

/-- Intersection is nonnegative. -/
theorem interArea_nonneg (a b : BBox) : 0 ≤ interArea a b :=
  mul_nonneg (le_max_left _ _) (le_max_left _ _)

/-- IoU lies in the interval [0, 1] (in fact it is always < 1 because of the
1e-9 term in the denominator). -/
theorem iou_mem_unit (a b : BBox) : 0 ≤ iou a b ∧ iou a b ≤ 1 := by
  unfold iou
  by_cases h : interArea a b = 0
  · simp [h]
  · have hpos : 0 < interArea a b := lt_of_le_of_ne (interArea_nonneg a b) (Ne.symm h)
    obtain ⟨hA, hB⟩ := interArea_le_boxArea a b hpos
    have hiq : (0 : ℚ) < (interArea a b : ℚ) := by exact_mod_cast hpos
    have hAq : (interArea a b : ℚ) ≤ (boxArea a : ℚ) := by exact_mod_cast hA
    have hBq : (interArea a b : ℚ) ≤ (boxArea b : ℚ) := by exact_mod_cast hB
    have hden : (0 : ℚ) < (boxArea a : ℚ) + (boxArea b : ℚ) - (interArea a b : ℚ) + iouEps := by
      unfold iouEps; linarith
    constructor
    · simp only [h, if_false]
      positivity
    · simp only [h, if_false]
      rw [div_le_one hden]
      unfold iouEps
      linarith

end IouFacts

/-!  ## The Track entity (src/OCCLUSION/car.py)  -/

/-- Histograms are normalised HSV histograms in the source (numpy arrays);
their numeric content is modelled as a list of rationals. -/
abbrev Hist : Type := List ℚ

/-- State of a Kalman filter owned by a track (the filterpy `KalmanFilter`
object restricted to the fields the repository reads and writes: the state
vector `x` and the state covariance `P`; the constant matrices F, H, Q, R set
by `create_kalman_filter` are module-level constants below). -/
structure KF where
  x : Fin 7 → ℚ
  P : Matrix (Fin 7) (Fin 7) ℚ

/-- Embedding of the `Car` dataclass of src/OCCLUSION/car.py (fields in source
order; `max_velocity_history` is the constant 5). -/
structure Car where
  trackId : ℕ
  bbox : BBox
  confidence : ℚ := 0
  hits : ℕ := 1
  lost : ℕ := 0
  centroids : List (ℚ × ℚ) := []
  hsvHist : Option Hist := none
  predictedBbox : Option BBox := none
  velocityHistory : List (ℚ × ℚ) := []
  isStaticFld : Bool := false
  kalmanFilter : Option KF := none

/-- Histogram blending of `Car.update` (src/OCCLUSION/car.py lines 72-85):
new = 0.8·old + 0.2·incoming, renormalised when the sum is positive.  The
incoming histogram is computed by cv2 from the frame pixels; it enters the
model as the `newHist` argument (`none` models the swallowed exception path of
the `try`/`except`). -/
def blendHist (old : Option Hist) (newHist : Option Hist) : Option Hist :=
  match newHist with
  | none => old
  | some nh =>
    match old with
    | none => some nh
    | some oh =>
      let m := List.zipWith (fun a b => (8 / 10 : ℚ) * a + (2 / 10 : ℚ) * b) oh nh
      let s := m.sum
      if 0 < s then some (m.map (fun v => v / s)) else some m

/-- Embedding of `Car.update` (src/OCCLUSION/car.py lines 43-88): recompute
velocity from the previous centroid (history capped at 5), set bbox,
confidence, hits, lost, append the centroid (capped at the last 50), blend the
appearance histogram, and clear the prediction. -/
def Car.applyDet (c : Car) (newHist : Option Hist) (b : BBox) (conf : ℚ) : Car :=
  let velH :=
    match c.centroids.getLast? with
    | none => c.velocityHistory
    | some old =>
      let nc := bboxCenter b
      let vh := c.velocityHistory ++ [(nc.1 - old.1, nc.2 - old.2)]
      if 5 < vh.length then vh.drop (vh.length - 5) else vh
  let cents :=
    let cs := c.centroids ++ [bboxCenter b]
    if 50 < cs.length then cs.drop (cs.length - 50) else cs
  { c with
    bbox := b
    confidence := conf
    hits := c.hits + 1
    lost := 0
    centroids := cents
    hsvHist := blendHist c.hsvHist newHist
    predictedBbox := none
    velocityHistory := velH }

/-- Embedding of `Car.mark_missed` (src/OCCLUSION/car.py lines 90-92): only
the `lost` counter is incremented. -/
def Car.markMissed (c : Car) : Car :=
  { c with lost := c.lost + 1 }

/-- Default track value used for out-of-range indexing (never reached in a
faithful source execution). -/
def dummyCar : Car := { trackId := 0, bbox := (0, 0, 0, 0) }

/-!  ## Greedy IoU matching (src/tracker.py, `Tracker._match`, lines 40-81)

The numpy matrix is modelled as a function of the two indices; invalidated
cells carry the value -1 exactly as in the source.  `np.argmax` scans the
matrix in row-major order and returns the first maximal cell.  -/

/-- Row-major enumeration of all (row, column) index pairs of a T × D grid. -/
def gridIdx (T D : ℕ) : List (ℕ × ℕ) :=
  (List.range T).flatMap (fun ti => (List.range D).map (fun di => (ti, di)))

/-- Embedding of `np.unravel_index(np.argmax(mat), mat.shape)`: the first cell,
in row-major order, holding the maximal value (only replaced on a strictly
greater value, matching numpy first-occurrence tie-breaking). -/
def argmaxGrid (m : ℕ → ℕ → ℚ) (T D : ℕ) : ℕ × ℕ :=
  (gridIdx T D).foldl (fun best p => if m best.1 best.2 < m p.1 p.2 then p else best) (0, 0)

/-- State of the greedy assignment loop: the (mutated) matrix and the list of
committed (track index, detection index) pairs in commit order.  The source's
`used_tracks` / `used_dets` sets are exactly the components of the committed
pairs and are read off from them. -/
structure GreedyState where
  mat : ℕ → ℕ → ℚ
  asg : List (ℕ × ℕ)

/-- One iteration of the greedy loop of `Tracker._match` (src/tracker.py lines
64-77): take the argmax cell; `none` models `break` when it is below the
threshold; otherwise either invalidate the single cell (the `continue` branch
for already-used rows/columns) or commit the pair and invalidate its whole row
and column. -/
def greedyStep (τ : ℚ) (T D : ℕ) (s : GreedyState) : Option GreedyState :=
  let ti := (argmaxGrid s.mat T D).1
  let di := (argmaxGrid s.mat T D).2
  if s.mat ti di < τ then none
  else if ti ∈ s.asg.map Prod.fst ∨ di ∈ s.asg.map Prod.snd then
    some { s with mat := fun a b => if a = ti ∧ b = di then -1 else s.mat a b }
  else
    some { mat := fun a b => if a = ti ∨ b = di then -1 else s.mat a b,
           asg := s.asg ++ [(ti, di)] }

/-- Fuel-indexed iteration of the greedy loop (`while True` in the source; at
most min T D pairs can ever be committed, so T*D+1 units of fuel are ample for
any terminating source execution, and every invariant below is proved for all
fuel values). -/
def greedyLoop (τ : ℚ) (T D : ℕ) : ℕ → GreedyState → GreedyState
  | 0, s => s
  | fuel + 1, s =>
    match greedyStep τ T D s with
    | none => s
    | some s2 => greedyLoop τ T D fuel s2

/-- IoU matrix of `Tracker._match` (src/tracker.py lines 52-57), built from
the current bbox of each track and each detection box. -/
def iouMatrixOf (cars : List Car) (dets : List Det) : ℕ → ℕ → ℚ :=
  fun ti di =>
    match cars.get? ti, dets.get? di with
    | some c, some d => iou c.bbox d.1
    | _, _ => 0

/-- Embedding of `Tracker._match` (src/tracker.py lines 40-81).  Returns
(assignments as (track id, detection index) pairs, unassigned track ids,
unassigned detection indices). -/
def trackerMatch (τ : ℚ) (tracks : List (ℕ × Car)) (dets : List Det) :
    List (ℕ × ℕ) × List ℕ × List ℕ :=
  if tracks.isEmpty ∨ dets.isEmpty then
    ([], tracks.map Prod.fst, List.range dets.length)
  else
    let T := tracks.length
    let D := dets.length
    let ids := tracks.map Prod.fst
    let final := greedyLoop τ T D (T * D + 1) ⟨iouMatrixOf (tracks.map Prod.snd) dets, []⟩
    let asg := final.asg.map (fun p => (ids.getD p.1 0, p.2))
    let unT := ((List.range T).filter (fun i => i ∉ final.asg.map Prod.fst)).map
      (fun i => ids.getD i 0)
    let unD := (List.range D).filter (fun i => i ∉ final.asg.map Prod.snd)
    (asg, unT, unD)

section GreedyFacts

/-- Fold helper: folding a function that always picks one of its two
arguments yields the initial value or a list element. -/
theorem foldl_choice_mem {α : Type} (g : α → α → α) (hg : ∀ b p, g b p = b ∨ g b p = p) :
    ∀ (l : List α) (init : α), l.foldl g init = init ∨ l.foldl g init ∈ l := by
  intro l
  induction l with
  | nil => intro init; left; rfl
  | cons a l ih =>
    intro init
    simp only [List.foldl_cons]
    rcases ih (g init a) with h | h
    · rcases hg init a with hga | hga
      · left; rw [h, hga]
      · right; rw [h, hga]; exact List.mem_cons_self _ _
    · right; exact List.mem_cons_of_mem _ h

/-- Membership in the grid enumeration gives the index bounds. -/
theorem mem_gridIdx {T D : ℕ} {p : ℕ × ℕ} (h : p ∈ gridIdx T D) :
    p.1 < T ∧ p.2 < D := by
  unfold gridIdx at h
  simp only [List.mem_flatMap, List.mem_map, List.mem_range] at h
  obtain ⟨ti, hti, di, hdi, rfl⟩ := h
  exact ⟨hti, hdi⟩

/-- The argmax cell is inside the grid whenever the grid is nonempty. -/
theorem argmaxGrid_bounds (m : ℕ → ℕ → ℚ) {T D : ℕ} (hT : 0 < T) (hD : 0 < D) :
    (argmaxGrid m T D).1 < T ∧ (argmaxGrid m T D).2 < D := by
  unfold argmaxGrid
  rcases foldl_choice_mem (fun best p => if m best.1 best.2 < m p.1 p.2 then p else best)
      (fun b p => by by_cases h : m b.1 b.2 < m p.1 p.2 <;> simp [h])
      (gridIdx T D) (0, 0) with h | h
  · rw [h]; exact ⟨hT, hD⟩
  · exact mem_gridIdx h

/-- The invariant maintained by the greedy loop: committed pairs are in
bounds, pairwise distinct in both components, each scored at least the
threshold in the original matrix, and cells outside used rows/columns are
untouched. -/
def GreedyInv (orig : ℕ → ℕ → ℚ) (τ : ℚ) (T D : ℕ) (s : GreedyState) : Prop :=
  (s.asg.map Prod.fst).Nodup ∧ (s.asg.map Prod.snd).Nodup ∧
  (∀ p ∈ s.asg, p.1 < T ∧ p.2 < D ∧ τ ≤ orig p.1 p.2) ∧
  (∀ a b, a ∉ s.asg.map Prod.fst → b ∉ s.asg.map Prod.snd → s.mat a b = orig a b)

/-- One greedy step preserves the invariant. -/
theorem greedyStep_inv {orig : ℕ → ℕ → ℚ} {τ : ℚ} {T D : ℕ} {s s2 : GreedyState}
    (hT : 0 < T) (hD : 0 < D)
    (hinv : GreedyInv orig τ T D s) (hstep : greedyStep τ T D s = some s2) :
    GreedyInv orig τ T D s2 := by
  obtain ⟨h1, h2, h3, h4⟩ := hinv
  unfold greedyStep at hstep
  by_cases hτ : s.mat (argmaxGrid s.mat T D).1 (argmaxGrid s.mat T D).2 < τ
  · simp [hτ] at hstep
  · simp only [hτ, if_false] at hstep
    by_cases hused : (argmaxGrid s.mat T D).1 ∈ s.asg.map Prod.fst ∨
        (argmaxGrid s.mat T D).2 ∈ s.asg.map Prod.snd
    · simp only [hused, if_true, Option.some.injEq] at hstep
      subst hstep
      refine ⟨h1, h2, h3, ?_⟩
      intro a b ha hb
      simp only
      have hne : ¬(a = (argmaxGrid s.mat T D).1 ∧ b = (argmaxGrid s.mat T D).2) := by
        rintro ⟨rfl, rfl⟩
        rcases hused with h | h
        · exact ha h
        · exact hb h
      rw [if_neg hne]
      exact h4 a b ha hb
    · simp only [hused, if_false, Option.some.injEq] at hstep
      subst hstep
      push_neg at hused
      obtain ⟨hu1, hu2⟩ := hused
      obtain ⟨hb1, hb2⟩ := argmaxGrid_bounds s.mat hT hD
      refine ⟨?_, ?_, ?_, ?_⟩
      · simp only [List.map_append, List.map_cons, List.map_nil]
        rw [List.nodup_append]
        exact ⟨h1, List.nodup_singleton _, by
          intro a ha hb
          simp only [List.mem_singleton] at hb
          subst hb
          exact hu1 ha⟩
      · simp only [List.map_append, List.map_cons, List.map_nil]
        rw [List.nodup_append]
        exact ⟨h2, List.nodup_singleton _, by
          intro a ha hb
          simp only [List.mem_singleton] at hb
          subst hb
          exact hu2 ha⟩
      · intro p hp
        simp only [List.mem_append, List.mem_singleton] at hp
        rcases hp with hp | hp
        · exact h3 p hp
        · subst hp
          refine ⟨hb1, hb2, ?_⟩
          have := h4 _ _ hu1 hu2
          rw [this] at hτ
          exact le_of_not_lt hτ
      · intro a b ha hb
        simp only [List.map_append, List.map_cons, List.map_nil, List.mem_append,
          List.mem_singleton] at ha hb
        push_neg at ha hb
        simp only
        rw [if_neg (by
          rintro (rfl | rfl)
          · exact ha.2 rfl
          · exact hb.2 rfl)]
        exact h4 a b ha.1 hb.1

/-- The greedy loop preserves the invariant for every fuel value. -/
theorem greedyLoop_inv {orig : ℕ → ℕ → ℚ} {τ : ℚ} {T D : ℕ}
    (hT : 0 < T) (hD : 0 < D) :
    ∀ (fuel : ℕ) (s : GreedyState), GreedyInv orig τ T D s →
      GreedyInv orig τ T D (greedyLoop τ T D fuel s) := by
  intro fuel
  induction fuel with
  | zero => intro s h; exact h
  | succ n ih =>
    intro s h
    unfold greedyLoop
    cases hstep : greedyStep τ T D s with
    | none => exact h
    | some s2 => exact ih s2 (greedyStep_inv hT hD h hstep)

end GreedyFacts

/-!  ## Track lifecycle (steps 2-5 of `update` in all tracker variants)

The three tracker variants under verification (src/tracker.py `Tracker`,
src/OCCLUSION/improved_tracker.py `OcclusionTracker` and `KalmanTracker`)
share the same lifecycle code after matching: update matched tracks, mark
unmatched tracks missed, create tracks for unmatched detections, evict tracks
whose `lost` exceeds the buffer.  -/

/-- Default detection used for out-of-range indexing (never reached in a
faithful source execution). -/
def dummyDet : Det := ((0, 0, 0, 0), 0)

/-- Step 2 of `update`: `for track_id, det_idx in assignments.items():
self.tracks[track_id].update(frame, bbox, conf)`.  The per-variant body is the
`applyM` argument. -/
def applyMatchedAll (applyM : ℕ → Car → ℕ → Car) (asg : List (ℕ × ℕ))
    (t : List (ℕ × Car)) : List (ℕ × Car) :=
  asg.foldl
    (fun acc p => acc.map (fun q => if q.1 = p.1 then (q.1, applyM q.1 q.2 p.2) else q)) t

/-- Step 3 of `update`: `for tid in un_tracks: self.tracks[tid].mark_missed()`. -/
def markMissedAll (unT : List ℕ) (t : List (ℕ × Car)) : List (ℕ × Car) :=
  unT.foldl
    (fun acc tid => acc.map (fun q => if q.1 = tid then (q.1, q.2.markMissed) else q)) t

/-- Step 4 of `update`: create a fresh track for every unassigned detection
index, handing out consecutive ids from `_next_id`. -/
def createAll (mkNew : ℕ → ℕ → Car) (unD : List ℕ) (t : List (ℕ × Car)) (nextId : ℕ) :
    List (ℕ × Car) × ℕ :=
  unD.foldl (fun acc di => (acc.1 ++ [(acc.2, mkNew acc.2 di)], acc.2 + 1)) (t, nextId)

/-- Step 5 of `update`: evict every track whose lost counter strictly exceeds
the buffer (`to_delete = [tid for tid, t in tracks.items() if t.lost > buffer]`). -/
def evictExpired (buffer : ℕ) (t : List (ℕ × Car)) : List (ℕ × Car) :=
  t.filter (fun p => decide (p.2.lost ≤ buffer))

/-- Embedding of `Tracker._create_track` of src/OCCLUSION/improved_tracker.py
lines 48-54: fresh Car with the detection's box and confidence, one centroid,
and a seeded appearance histogram (computed by cv2 from the frame, hence an
oracle argument here).  src/tracker.py's `_create_track` is the same with the
histogram line commented out. -/
def mkNewCar (id : ℕ) (d : Det) (seedHist : Option Hist) : Car :=
  { trackId := id
    bbox := d.1
    confidence := d.2
    centroids := [bboxCenter d.1]
    hsvHist := seedHist }

/-- Lifecycle steps 2-5 shared by every `update` variant, parameterised by the
match result, the matched-track update body and the track factory. -/
def runLifecycle (applyM : ℕ → Car → ℕ → Car) (mkNew : ℕ → ℕ → Car) (buffer : ℕ)
    (tracks : List (ℕ × Car)) (asg : List (ℕ × ℕ)) (unT : List ℕ) (unD : List ℕ)
    (nextId : ℕ) : List (ℕ × Car) × ℕ :=
  let t1 := applyMatchedAll applyM asg tracks
  let t2 := markMissedAll unT t1
  let t3 := createAll mkNew unD t2 nextId
  (evictExpired buffer t3.1, t3.2)

/-- Embedding of `Tracker.update` (src/tracker.py lines 83-111): greedy IoU
match, then the shared lifecycle.  `histO tid di` is the cv2 histogram oracle
for matched updates (the root-variant `Car` of src/car.py differs from the
occlusion `Car` only in appearance/speed bookkeeping fields; its `update` /
`mark_missed` handling of bbox, confidence, hits and lost is identical, so the
single Car model covers both). -/
def trackerUpdate (τ : ℚ) (maxLost : ℕ) (histO : ℕ → ℕ → Option Hist)
    (seedHistO : ℕ → Option Hist) (tracks : List (ℕ × Car)) (nextId : ℕ)
    (dets : List Det) : List (ℕ × Car) × ℕ :=
  let m := trackerMatch τ tracks dets
  runLifecycle
    (fun tid c di => c.applyDet (histO tid di) (dets.getD di dummyDet).1 (dets.getD di dummyDet).2)
    (fun id di => mkNewCar id (dets.getD di dummyDet) (seedHistO di))
    maxLost tracks m.1 m.2.1 m.2.2 nextId

/-!  ## OcclusionTracker (src/OCCLUSION/improved_tracker.py lines 167-684)  -/

/-- Construction-time configuration of `OcclusionTracker.__init__`
(lines 173-197). -/
structure OccCfg where
  iouThreshold : ℚ := 3 / 10
  maxLost : ℕ := 30
  minHits : ℕ := 1
  bufferFrames : ℕ := 25
  searchRadius : ℚ := 100
  minMatchScore : ℚ := 1 / 2
  skipFrames : ℕ := 1
  fragmentIou : ℚ := 1 / 10

/-- Oracle type standing for `OcclusionTracker._is_static` (lines 271-293).
The source predicate compares an average of Euclidean centroid distances — a
sum of several square roots, hence a real number with no rational
normal form — against a threshold; the claims under verification treat it as
an opaque Boolean property of the track, so it enters the model as a
parameter. -/
abbrev StaticO : Type := Car → Bool

/-- Sum of consecutive differences, as the velocity accumulation loops
`for i in range(1, len(recent)): total += recent[i] - recent[i-1]`. -/
def sumConsecDiffs : List ℚ → ℚ
  | [] => 0
  | [_] => 0
  | a :: b :: l => (b - a) + sumConsecDiffs (b :: l)

/-- Embedding of `OcclusionTracker._predict_position` (lines 295-329): with
fewer than two centroids return the last known centroid (or (0,0)); for a
static track return the last centroid; otherwise extrapolate the average
velocity of the last min(5, n) centroids `framesAhead` frames. -/
def predictPosition (staticO : StaticO) (t : Car) (framesAhead : ℕ) : ℚ × ℚ :=
  if t.centroids.length < 2 then t.centroids.getLastD (0, 0)
  else if staticO t then t.centroids.getLastD (0, 0)
  else
    let n := min 5 t.centroids.length
    let recent := t.centroids.drop (t.centroids.length - n)
    let vx := sumConsecDiffs (recent.map Prod.fst) / ((recent.length : ℚ) - 1)
    let vy := sumConsecDiffs (recent.map Prod.snd) / ((recent.length : ℚ) - 1)
    let last := t.centroids.getLastD (0, 0)
    (last.1 + vx * (framesAhead : ℕ), last.2 + vy * (framesAhead : ℕ))

/-- Embedding of the `frames_ahead` computation of
`OcclusionTracker._compute_match_score` (line 345):
`frames_ahead = max(1, track.lost * (self.skip_frames + 1))`. -/
def scoreFramesAhead (cfg : OccCfg) (t : Car) : ℕ :=
  max 1 (t.lost * (cfg.skipFrames + 1))

/-- Minimum dimension across two boxes
(`min(w1, h1, w2, h2)`, lines 243-244). -/
def minDim (b1 b2 : BBox) : ℤ :=
  min (min (b1.2.2.1 - b1.1) (b1.2.2.2 - b1.2.1))
    (min (b2.2.2.1 - b2.1) (b2.2.2.2 - b2.2.1))

/-- Pairwise merge criteria of `OcclusionTracker._merge_fragments`
(lines 221-246): some overlap (IoU ≥ 0.05), similar areas
(min/max ratio > 0.3) and close centres
(distance < 0.8 · min dimension, compared square-free). -/
def fragCriteria (b1 b2 : BBox) : Bool :=
  if iou b1 b2 < 1 / 20 then false
  else
    let area1 := boxArea b1
    let area2 := boxArea b2
    let areaQuot : ℚ := (min area1 area2 : ℤ) / ((max area1 area2 : ℤ) : ℚ)
    decide ((3 : ℚ) / 10 < areaQuot) &&
      sqrtLt (distSq (bboxCenter b1) (bboxCenter b2)) ((4 / 5 : ℚ) * (minDim b1 b2 : ℤ))

/-- Union bounding box of a nonempty group of detections
(lines 252-257: componentwise min of x1, y1 and max of x2, y2). -/
def unionBox (b : BBox) (bs : List BBox) : BBox :=
  (bs.foldl (fun m q => min m q.1) b.1,
   bs.foldl (fun m q => min m q.2.1) b.2.1,
   bs.foldl (fun m q => max m q.2.2.1) b.2.2.1,
   bs.foldl (fun m q => max m q.2.2.2) b.2.2.2)

/-- Outer loop of `_merge_fragments` (lines 210-267), processing anchors in
index order.  The inner scan adds exactly the later, still-unused detections
whose box satisfies the pairwise criteria against the anchor's box; the
`used.add(j)` calls inside the scan only ever add indices the scan has already
passed, so the scan is embedded as a filter over the later indices. -/
def mergeOuter (dets : List Det) : List ℕ → List ℕ → List Det
  | [], _ => []
  | i :: rest, used =>
    if i ∈ used then mergeOuter dets rest used
    else
      match dets.get? i with
      | none => mergeOuter dets rest used
      | some (b1, c1) =>
        let fjs := (List.range dets.length).filter (fun j =>
          decide (i < j) && decide (j ∉ used) &&
            match dets.get? j with
            | some (b2, _) => fragCriteria b1 b2
            | none => false)
        if fjs.isEmpty then (b1, c1) :: mergeOuter dets rest (used ++ [i])
        else
          let frags := fjs.filterMap (fun j => dets.get? j)
          let mbox := unionBox b1 (frags.map Prod.fst)
          let mconf := (frags.map Prod.snd).foldl max c1
          (mbox, mconf) :: mergeOuter dets rest (used ++ fjs ++ [i])

/-- Embedding of `OcclusionTracker._merge_fragments` (lines 199-269):
disabled (input returned unchanged) for a singleton input or when
`fragment_iou ≤ 0`. -/
def mergeFragments (cfg : OccCfg) (dets : List Det) : List Det :=
  if dets.length ≤ 1 ∨ cfg.fragmentIou ≤ 0 then dets
  else mergeOuter dets (List.range dets.length) []

/-- Candidate entry of Phase 2 of `OcclusionTracker._match` (line 627-628):
the sort key fields of the Python tuple
`((score, hits >= 8, -lost, is_static), score, tid, di, lost, is_static)`
(the duplicated score / is_static components compare identically and are kept
once). -/
structure Cand where
  score : ℚ
  est : Bool
  negLost : ℤ
  stat : Bool
  tid : ℕ
  di : ℕ
  lostN : ℕ
  deriving DecidableEq

/-- Python `>` on the candidate tuples (lexicographic, False < True on
booleans), determining the descending sort order of `candidates.sort
(reverse=True)`. -/
def candGT (a b : Cand) : Bool :=
  if a.score ≠ b.score then decide (b.score < a.score)
  else if a.est ≠ b.est then a.est
  else if a.negLost ≠ b.negLost then decide (b.negLost < a.negLost)
  else if a.stat ≠ b.stat then a.stat
  else if a.tid ≠ b.tid then decide (b.tid < a.tid)
  else if a.di ≠ b.di then decide (b.di < a.di)
  else if a.lostN ≠ b.lostN then decide (b.lostN < a.lostN)
  else false

/-- Stable insertion into a descending-sorted list: a new element passes an
existing one only when strictly greater. -/
def insertDesc (a : Cand) : List Cand → List Cand
  | [] => [a]
  | b :: l => if candGT a b then a :: b :: l else b :: insertDesc a l

/-- Stable descending sort modelling `candidates.sort(reverse=True)`. -/
def sortCandsDesc (l : List Cand) : List Cand :=
  l.foldl (fun acc a => insertDesc a acc) []

/-- Phase-2 candidate generation of `OcclusionTracker._match` (lines 589-628):
lost tracks filtered by the hardcoded history (`hits < 4`) and staleness
(`lost > 10`) cut-offs, paired with every detection not used by Phase 1, kept
when the composite score is nonzero and reaches the staticness/lost-scaled
threshold. -/
def occlusionCandidates (cfg : OccCfg) (staticO : StaticO) (scoreFn : Car → BBox → ℚ)
    (lostTracks : List (ℕ × Car)) (mdets : List Det) (usedDets : List ℕ) : List Cand :=
  lostTracks.flatMap (fun p =>
    if p.2.hits < 4 then []
    else if 10 < p.2.lost then []
    else
      let isStat := staticO p.2
      (List.range mdets.length).filterMap (fun di =>
        if di ∈ usedDets then none
        else
          let db := (mdets.getD di dummyDet).1
          let score := scoreFn p.2 db
          if score = 0 then none
          else
            let thr :=
              if isStat then cfg.minMatchScore * (85 / 100)
              else if p.2.lost = 1 then cfg.minMatchScore * (90 / 100)
              else if p.2.lost = 2 then cfg.minMatchScore * (95 / 100)
              else cfg.minMatchScore * (105 / 100)
            if thr ≤ score then
              some ⟨score, decide (8 ≤ p.2.hits), -(p.2.lost : ℤ), isStat, p.1, di, p.2.lost⟩
            else none))

/-- Greedy commitment of the sorted Phase-2 candidates (lines 633-639):
skip a candidate whose track is already assigned or whose detection is used. -/
def commitCands (cands : List Cand) (asg : List (ℕ × ℕ)) (usedDets : List ℕ) :
    List (ℕ × ℕ) × List ℕ :=
  cands.foldl
    (fun acc c =>
      if c.tid ∈ acc.1.map Prod.fst ∨ c.di ∈ acc.2 then acc
      else (acc.1 ++ [(c.tid, c.di)], acc.2 ++ [c.di]))
    (asg, usedDets)

/-- Dict-style insertion used in the Phase-1 loop of `OcclusionTracker._match`
(`assignments[tid] = di`, line 584): overwrite an existing key in place,
otherwise append. -/
def dictInsert (l : List (ℕ × ℕ)) (k v : ℕ) : List (ℕ × ℕ) :=
  if k ∈ l.map Prod.fst then l.map (fun p => if p.1 = k then (k, v) else p)
  else l ++ [(k, v)]

/-- State of the Phase-1 loop of `OcclusionTracker._match`:
matrix, assignment dict (over track ids) and used detection indices. -/
structure OccP1State where
  mat : ℕ → ℕ → ℚ
  asg : List (ℕ × ℕ)
  usedDets : List ℕ

/-- One iteration of the Phase-1 greedy loop of `OcclusionTracker._match`
(lines 576-587): argmax, break below the threshold, otherwise commit (this
variant performs no used-row/column re-check) and invalidate the row and the
column. -/
def occP1Step (τ : ℚ) (activeIds : List ℕ) (T D : ℕ) (s : OccP1State) :
    Option OccP1State :=
  let ti := (argmaxGrid s.mat T D).1
  let di := (argmaxGrid s.mat T D).2
  if s.mat ti di < τ then none
  else
    some
      { mat := fun a b => if a = ti ∨ b = di then -1 else s.mat a b
        asg := dictInsert s.asg (activeIds.getD ti 0) di
        usedDets := s.usedDets ++ [di] }

/-- Fuel-indexed Phase-1 loop. -/
def occP1Loop (τ : ℚ) (activeIds : List ℕ) (T D : ℕ) : ℕ → OccP1State → OccP1State
  | 0, s => s
  | fuel + 1, s =>
    match occP1Step τ activeIds T D s with
    | none => s
    | some s2 => occP1Loop τ activeIds T D fuel s2

/-- Embedding of `OcclusionTracker._match` (lines 546-649): early return on an
empty detection list, fragment merging, Phase-1 greedy IoU on the active
(lost = 0) tracks, Phase-2 scored re-identification on the lost (lost > 0)
tracks.  Returns (assignments over track ids with detection indices into the
MERGED list, unassigned track ids, unassigned merged-detection indices). -/
def occlusionMatch (cfg : OccCfg) (staticO : StaticO) (scoreFn : Car → BBox → ℚ)
    (tracks : List (ℕ × Car)) (dets : List Det) :
    List (ℕ × ℕ) × List ℕ × List ℕ :=
  if dets.isEmpty then ([], tracks.map Prod.fst, [])
  else
    let mdets := mergeFragments cfg dets
    let active := tracks.filter (fun p => p.2.lost = 0)
    let lostT := tracks.filter (fun p => 0 < p.2.lost)
    let T := active.length
    let D := mdets.length
    let p1 :=
      if active.isEmpty then OccP1State.mk (fun _ _ => 0) [] []
      else
        occP1Loop cfg.iouThreshold (active.map Prod.fst) T D (T * D + 1)
          ⟨iouMatrixOf (active.map Prod.snd) mdets, [], []⟩
    let cands := sortCandsDesc (occlusionCandidates cfg staticO scoreFn lostT mdets p1.usedDets)
    let committed := commitCands cands p1.asg p1.usedDets
    let unT := (tracks.map Prod.fst).filter (fun tid => tid ∉ committed.1.map Prod.fst)
    let unD := (List.range D).filter (fun i => i ∉ committed.2)
    (committed.1, unT, unD)

/-- Embedding of `OcclusionTracker.update` (lines 651-684): two-phase match,
then the shared lifecycle with `buffer_frames` as the eviction buffer.  As in
the source, the detection indices returned by `_match` (which refer to the
merged list) are applied to the ORIGINAL detection list. -/
def occlusionUpdate (cfg : OccCfg) (staticO : StaticO) (scoreFn : Car → BBox → ℚ)
    (histO : ℕ → ℕ → Option Hist) (seedHistO : ℕ → Option Hist)
    (tracks : List (ℕ × Car)) (nextId : ℕ) (dets : List Det) :
    List (ℕ × Car) × ℕ :=
  let m := occlusionMatch cfg staticO scoreFn tracks dets
  runLifecycle
    (fun tid c di => c.applyDet (histO tid di) (dets.getD di dummyDet).1 (dets.getD di dummyDet).2)
    (fun id di => mkNewCar id (dets.getD di dummyDet) (seedHistO di))
    cfg.bufferFrames tracks m.1 m.2.1 m.2.2 nextId

/-!  ## KalmanTracker (src/OCCLUSION/improved_tracker.py lines 734-1113)

The filterpy `KalmanFilter.predict` / `KalmanFilter.update` steps are an
external library and enter the model as oracle functions on the KF state; the
matrices the repository itself sets in `create_kalman_filter` and the
innovation-covariance computation of `_mahalanobis_distance` (which reads
`kf.H`, `kf.P`, `kf.R` directly) are embedded concretely.  The
`linear_sum_assignment` calls (scipy) are likewise oracles: the claims only
use scipy's documented contract that the returned row and column index lists
are duplicate-free. -/

/-- Measurement matrix H of `create_kalman_filter` (lines 771-776). -/
def kalH : Matrix (Fin 4) (Fin 7) ℚ :=
  Matrix.of
    ![![1, 0, 0, 0, 0, 0, 0],
      ![0, 1, 0, 0, 0, 0, 0],
      ![0, 0, 1, 0, 0, 0, 0],
      ![0, 0, 0, 1, 0, 0, 0]]

/-- Measurement-noise covariance R of `create_kalman_filter` (lines 788-790):
identity scaled by 5 on position and 15 on size. -/
def kalR : Matrix (Fin 4) (Fin 4) ℚ :=
  Matrix.of
    ![![5, 0, 0, 0],
      ![0, 5, 0, 0],
      ![0, 0, 15, 0],
      ![0, 0, 0, 15]]

/-- Initial state covariance P of `create_kalman_filter` (lines 793-796):
20 on position/size, 100 on centre velocity, 50 on scale velocity. -/
def kalP0 : Matrix (Fin 7) (Fin 7) ℚ :=
  Matrix.diagonal ![20, 20, 20, 20, 100, 100, 50]

/-- Configuration of `KalmanTracker.__init__` (lines 806-811). -/
structure KalCfg where
  iouThreshold : ℚ := 3 / 10
  maxLost : ℕ := 15
  minHits : ℕ := 3
  mahalanobisThreshold : ℚ := 7 / 2

/-- Truncation toward zero, the semantics of Python `int()` on a float. -/
def truncQ (q : ℚ) : ℤ := if 0 ≤ q then ⌊q⌋ else ⌈q⌉

/-- Clamp `max lo (min hi q)`, as `max(10, min(1000, pw))` (lines 933-934). -/
def clampQ (lo hi q : ℚ) : ℚ := max lo (min hi q)

/-- Bbox of a centre/size state, `(int(px-pw/2), int(py-ph/2), int(px+pw/2),
int(py+ph/2))` (lines 937-942 and 1052-1057). -/
def centerSizeToBBox (px py pw ph : ℚ) : BBox :=
  (truncQ (px - pw / 2), truncQ (py - ph / 2), truncQ (px + pw / 2), truncQ (py + ph / 2))

/-- Per-track prediction step of `KalmanTracker.update` (lines 925-942): run
the filterpy prediction (oracle), clamp the predicted size to [10, 1000], and
expose the result as `predicted_bbox`. -/
def kalmanPredictStep (predictO : KF → KF) (c : Car) : Car :=
  match c.kalmanFilter with
  | none => c
  | some kf =>
    let kf2 := predictO kf
    let pw := clampQ 10 1000 (kf2.x 2)
    let ph := clampQ 10 1000 (kf2.x 3)
    { c with
      kalmanFilter := some kf2
      predictedBbox := some (centerSizeToBBox (kf2.x 0) (kf2.x 1) pw ph) }

/-- Innovation covariance `S = H @ P @ H.T + kf.R` of `_mahalanobis_distance`
(lines 887-889). -/
def sMatrix (kf : KF) : Matrix (Fin 4) (Fin 4) ℚ :=
  kalH * kf.P * kalH.transpose + kalR

/-- Result of `_mahalanobis_distance` when it does not return `np.inf`:
either a Mahalanobis distance (value = sqrt of the stored payload, from
`np.sqrt(max(0, dist_sq))`) or the normalised-Euclidean fallback (value =
sqrt of the stored squared centre distance, divided by 50). -/
inductive MDist where
  | mah (sq : ℚ)
  | fb (sq : ℚ)
  deriving DecidableEq

/-- Comparison of a distance result against a threshold
(`dist < effective_threshold`), square-free. -/
def MDist.ltQ : MDist → ℚ → Bool
  | .mah sq, t => sqrtLt sq t
  | .fb sq, t => sqrtLt sq (50 * t)

/-- Embedding of `KalmanTracker._mahalanobis_distance` (lines 838-913).
`none` models the `np.inf` outcomes (no filter, physical-distance gate,
size-ratio gate); a singular innovation covariance (the `np.linalg.LinAlgError`
branch) yields the normalised-Euclidean fallback. -/
def mahalanobisDistance (t : Car) (db : BBox) : Option MDist :=
  match t.kalmanFilter with
  | none => none
  | some kf =>
    let detC := bboxCenter db
    let detW : ℚ := ((db.2.2.1 - db.1 : ℤ) : ℚ)
    let detH : ℚ := ((db.2.2.2 - db.2.1 : ℤ) : ℚ)
    let z : Fin 4 → ℚ := ![detC.1, detC.2, detW, detH]
    let predicted := kalH.mulVec kf.x
    let dEuclSq := (detC.1 - predicted 0) ^ 2 + (detC.2 - predicted 1) ^ 2
    let maxPhys : ℚ := min (150 + (t.lost : ℚ) * 15) 400
    if sqrtGt dEuclSq maxPhys then none
    else
      let predW := predicted 2
      let predH := predicted 3
      let srW := max detW predW / max 1 (min detW predW)
      let srH := max detH predH / max 1 (min detH predH)
      if 3 < srW ∨ 3 < srH then none
      else
        let S := sMatrix kf
        let y := z - predicted
        if S.det = 0 then some (.fb dEuclSq)
        else some (.mah (max 0 (Matrix.dotProduct y ((S.det⁻¹ • S.adjugate).mulVec y))))

/-- Phase-1 acceptance of `KalmanTracker.update` (lines 956-972): for each
(row, column) pair of the optimal assignment (scipy oracle), commit when the
IoU of the active track's predicted (or current) bbox with the detection
reaches the threshold. -/
def kalmanPhase1 (τ : ℚ) (activeIds : List ℕ) (activeCars : List Car)
    (dets : List Det) (lsa1 : List (ℕ × ℕ)) : List (ℕ × ℕ) :=
  lsa1.foldl
    (fun acc rc =>
      match activeCars.get? rc.1, dets.get? rc.2 with
      | some c, some d =>
        if τ ≤ iou (c.predictedBbox.getD c.bbox) d.1 then
          dictInsert acc (activeIds.getD rc.1 0) rc.2
        else acc
      | _, _ => acc)
    []

/-- Phase-2 distance matrix of `KalmanTracker.update` (lines 978-1005):
rows are lost tracks, columns unassigned detection indices; `none` models
`np.inf` (new tracks with hits < 2, rejections inside `_mahalanobis_distance`,
or distances at or above the lost-scaled adaptive threshold). -/
def kalmanDistMatrix (mthresh : ℚ) (lostCars : List Car) (unD : List ℕ)
    (dets : List Det) : ℕ → ℕ → Option MDist :=
  fun i j =>
    match lostCars.get? i, unD.get? j with
    | some c, some dIdx =>
      if c.hits < 2 then none
      else
        let tm : ℚ := if 15 < c.lost then 3 / 2 else 1
        match mahalanobisDistance c (dets.getD dIdx dummyDet).1 with
        | none => none
        | some d => if d.ltQ (mthresh * tm) then some d else none
    | _, _ => none

/-- Phase-2 acceptance of `KalmanTracker.update` (lines 1008-1026): commit
each (row, column) pair of the optimal assignment (scipy oracle) whose matrix
entry beats the adaptive threshold again. -/
def kalmanPhase2Commit (mthresh : ℚ) (lostIds : List ℕ) (lostCars : List Car)
    (unD : List ℕ) (dets : List Det) (lsa2 : List (ℕ × ℕ))
    (asg : List (ℕ × ℕ)) : List (ℕ × ℕ) :=
  lsa2.foldl
    (fun acc rc =>
      match lostCars.get? rc.1 with
      | none => acc
      | some c =>
        let tm : ℚ := if 15 < c.lost then 3 / 2 else 1
        match kalmanDistMatrix mthresh lostCars unD dets rc.1 rc.2 with
        | none => acc
        | some d =>
          if d.ltQ (mthresh * tm) then
            dictInsert acc (lostIds.getD rc.1 0) (unD.getD rc.2 0)
          else acc)
    asg

/-- Matched-track update body of `KalmanTracker.update` (lines 1031-1085):
filterpy correction (oracle) with the measurement [cx, cy, w, h], then, for a
track with hits ≥ 3 and a sane corrected size, a hits-weighted blend of the
corrected Kalman bbox with the raw detection bbox; finally the ordinary
`Car.update`. -/
def kalmanApplyMatched (correctO : KF → (Fin 4 → ℚ) → KF)
    (histO : ℕ → ℕ → Option Hist) (dets : List Det) (tid : ℕ) (c : Car) (di : ℕ) : Car :=
  let d := dets.getD di dummyDet
  let bbox := d.1
  match c.kalmanFilter with
  | none => c.applyDet (histO tid di) bbox d.2
  | some kf =>
    let center := bboxCenter bbox
    let w : ℚ := ((bbox.2.2.1 - bbox.1 : ℤ) : ℚ)
    let h : ℚ := ((bbox.2.2.2 - bbox.2.1 : ℤ) : ℚ)
    let kf2 := correctO kf ![center.1, center.2, w, h]
    let bbox2 :=
      if 3 ≤ c.hits then
        let px := kf2.x 0
        let py := kf2.x 1
        let pw := kf2.x 2
        let ph := kf2.x 3
        if 10 < pw ∧ pw < 1000 ∧ 10 < ph ∧ ph < 1000 then
          let cb := centerSizeToBBox px py pw ph
          let kw : ℚ := if 10 ≤ c.hits then 8 / 10 else if 5 ≤ c.hits then 7 / 10 else 1 / 2
          let yw : ℚ := 1 - kw
          (truncQ (kw * (cb.1 : ℤ) + yw * (bbox.1 : ℤ)),
           truncQ (kw * (cb.2.1 : ℤ) + yw * (bbox.2.1 : ℤ)),
           truncQ (kw * (cb.2.2.1 : ℤ) + yw * (bbox.2.2.1 : ℤ)),
           truncQ (kw * (cb.2.2.2 : ℤ) + yw * (bbox.2.2.2 : ℤ)))
        else bbox
      else bbox
    ({ c with kalmanFilter := some kf2 }).applyDet (histO tid di) bbox2 d.2

/-- Embedding of `KalmanTracker._create_track` (lines 813-836): an ordinary
new track plus a fresh Kalman filter whose state is the detection's centre and
size with zero velocities. -/
def mkNewKalmanCar (id : ℕ) (d : Det) (seedHist : Option Hist) : Car :=
  let c := mkNewCar id d seedHist
  let center := bboxCenter d.1
  { c with
    kalmanFilter := some
      ⟨![center.1, center.2, ((d.1.2.2.1 - d.1.1 : ℤ) : ℚ), ((d.1.2.2.2 - d.1.2.1 : ℤ) : ℚ),
          0, 0, 0], kalP0⟩ }

/-- Assignment computation of `KalmanTracker.update` (lines 949-1026), on the
already-predicted track table: Phase-1 optimal IoU assignment over active
(lost = 0) tracks, then Phase-2 Mahalanobis assignment over lost (lost > 0)
tracks and leftover detections.  Returns (Phase-1 assignments, combined
assignments).  `lsa1` and `lsa2` are the two scipy `linear_sum_assignment`
results (oracles). -/
def kalmanAssign (cfg : KalCfg) (lsa1 lsa2 : List (ℕ × ℕ))
    (tracksP : List (ℕ × Car)) (dets : List Det) : List (ℕ × ℕ) × List (ℕ × ℕ) :=
  let active := tracksP.filter (fun p => p.2.lost = 0)
  let lostT := tracksP.filter (fun p => 0 < p.2.lost)
  let asg1 :=
    if active.isEmpty ∨ dets.isEmpty then []
    else kalmanPhase1 cfg.iouThreshold (active.map Prod.fst) (active.map Prod.snd) dets lsa1
  let unD1 := (List.range dets.length).filter (fun i => i ∉ asg1.map Prod.snd)
  let asg2 :=
    if lostT.isEmpty ∨ unD1.isEmpty then asg1
    else
      kalmanPhase2Commit cfg.mahalanobisThreshold (lostT.map Prod.fst) (lostT.map Prod.snd)
        unD1 dets lsa2 asg1
  (asg1, asg2)

/-- Embedding of `KalmanTracker.update` (lines 915-1113): predict every
filter, the two assignment phases (`kalmanAssign`), then the shared lifecycle
with `max_lost` as the eviction buffer. -/
def kalmanUpdate (cfg : KalCfg) (predictO : KF → KF) (correctO : KF → (Fin 4 → ℚ) → KF)
    (lsa1 lsa2 : List (ℕ × ℕ)) (histO : ℕ → ℕ → Option Hist)
    (seedHistO : ℕ → Option Hist) (tracks : List (ℕ × Car)) (nextId : ℕ)
    (dets : List Det) : List (ℕ × Car) × ℕ :=
  let tracksP := tracks.map (fun p => (p.1, kalmanPredictStep predictO p.2))
  let asg2 := (kalmanAssign cfg lsa1 lsa2 tracksP dets).2
  let unT := (tracksP.map Prod.fst).filter (fun tid => tid ∉ asg2.map Prod.fst)
  let unD := (List.range dets.length).filter (fun i => i ∉ asg2.map Prod.snd)
  runLifecycle (kalmanApplyMatched correctO histO dets)
    (fun id di => mkNewKalmanCar id (dets.getD di dummyDet) (seedHistO di))
    cfg.maxLost tracksP asg2 unT unD nextId

/-!  ## Association-list semantics of the lifecycle steps  -/

/-- Detection index assigned to a track id by an assignment list (the dict
lookup `assignments[tid]`). -/
def lookupIdx (asg : List (ℕ × ℕ)) (k : ℕ) : Option ℕ :=
  (asg.find? (fun p => p.1 = k)).map Prod.snd

section ListLemmas

theorem lookupIdx_nil (k : ℕ) : lookupIdx [] k = none := rfl

theorem lookupIdx_eq_none_of_not_mem {asg : List (ℕ × ℕ)} {k : ℕ}
    (h : k ∉ asg.map Prod.fst) : lookupIdx asg k = none := by
  induction asg with
  | nil => rfl
  | cons a tl ih =>
    simp only [List.map_cons, List.mem_cons] at h
    push_neg at h
    unfold lookupIdx
    rw [List.find?_cons_of_neg _ (by simpa using Ne.symm h.1)]
    exact ih h.2

theorem lookupIdx_cons_ne {a : ℕ × ℕ} {tl : List (ℕ × ℕ)} {k : ℕ} (h : a.1 ≠ k) :
    lookupIdx (a :: tl) k = lookupIdx tl k := by
  unfold lookupIdx
  rw [List.find?_cons_of_neg _ (by simpa using h)]

theorem lookupIdx_cons_eq {a : ℕ × ℕ} {tl : List (ℕ × ℕ)} {k : ℕ} (h : a.1 = k) :
    lookupIdx (a :: tl) k = some a.2 := by
  unfold lookupIdx
  rw [List.find?_cons_of_pos _ (by simpa using h)]
  rfl

theorem lookupIdx_isSome_of_mem {asg : List (ℕ × ℕ)} {k : ℕ}
    (h : k ∈ asg.map Prod.fst) : ∃ di, lookupIdx asg k = some di := by
  induction asg with
  | nil => simp at h
  | cons a tl ih =>
    by_cases hk : a.1 = k
    · exact ⟨a.2, lookupIdx_cons_eq hk⟩
    · rw [lookupIdx_cons_ne hk]
      apply ih
      simp only [List.map_cons, List.mem_cons] at h
      rcases h with h | h
      · exact absurd h.symm hk
      · exact h

/-- Two entries of an association list with duplicate-free keys and the same
key carry the same value. -/
theorem mem_unique_key {α : Type} {l : List (ℕ × α)} (h : (l.map Prod.fst).Nodup)
    {k : ℕ} {a b : α} (ha : (k, a) ∈ l) (hb : (k, b) ∈ l) : a = b := by
  induction l with
  | nil => simp at ha
  | cons x tl ih =>
    simp only [List.map_cons, List.nodup_cons] at h
    simp only [List.mem_cons] at ha hb
    rcases ha with ha | ha <;> rcases hb with hb | hb
    · exact (Prod.ext_iff.mp (ha.trans hb.symm)).2
    · exfalso
      apply h.1
      rw [← ha]
      exact List.mem_map.mpr ⟨(k, b), hb, rfl⟩
    · exfalso
      apply h.1
      rw [← hb]
      exact List.mem_map.mpr ⟨(k, a), ha, rfl⟩
    · exact ih h.2 ha hb

/-- Mapping an entry-wise function that preserves keys preserves the key
list. -/
theorem map_fst_preserve {α : Type} {g : ℕ × α → ℕ × α} (hg : ∀ q, (g q).1 = q.1)
    (t : List (ℕ × α)) : (t.map g).map Prod.fst = t.map Prod.fst := by
  rw [List.map_map]
  exact List.map_congr_left (fun q _ => hg q)

/-- With duplicate-free assignment keys, the sequential per-assignment track
updates of step 2 coincide with a single parallel pass. -/
theorem applyMatchedAll_eq_map (applyM : ℕ → Car → ℕ → Car) (asg : List (ℕ × ℕ))
    (hnd : (asg.map Prod.fst).Nodup) (t : List (ℕ × Car)) :
    applyMatchedAll applyM asg t =
      t.map (fun q =>
        match lookupIdx asg q.1 with
        | some di => (q.1, applyM q.1 q.2 di)
        | none => q) := by
  induction asg generalizing t with
  | nil =>
    simp [applyMatchedAll, lookupIdx_nil]
  | cons a tl ih =>
    simp only [List.map_cons, List.nodup_cons] at hnd
    have step : applyMatchedAll applyM (a :: tl) t =
        applyMatchedAll applyM tl
          (t.map (fun q => if q.1 = a.1 then (q.1, applyM q.1 q.2 a.2) else q)) := rfl
    rw [step, ih hnd.2, List.map_map]
    apply List.map_congr_left
    intro q _
    by_cases hq : q.1 = a.1
    · have h1 : lookupIdx (a :: tl) a.1 = some a.2 := lookupIdx_cons_eq rfl
      have h2 : lookupIdx tl a.1 = none := lookupIdx_eq_none_of_not_mem hnd.1
      simp [Function.comp_apply, hq, h1, h2]
    · have h1 : lookupIdx (a :: tl) q.1 = lookupIdx tl q.1 :=
        lookupIdx_cons_ne (fun h => hq h.symm)
      simp [Function.comp_apply, hq, h1]

/-- With a duplicate-free list of unmatched track ids, the sequential
`mark_missed` calls of step 3 coincide with a single parallel pass. -/
theorem markMissedAll_eq_map (unT : List ℕ) (hnd : unT.Nodup) (t : List (ℕ × Car)) :
    markMissedAll unT t =
      t.map (fun q => if q.1 ∈ unT then (q.1, q.2.markMissed) else q) := by
  induction unT generalizing t with
  | nil => simp [markMissedAll]
  | cons a tl ih =>
    simp only [List.nodup_cons] at hnd
    have step : markMissedAll (a :: tl) t =
        markMissedAll tl (t.map (fun q => if q.1 = a then (q.1, q.2.markMissed) else q)) := rfl
    rw [step, ih hnd.2, List.map_map]
    apply List.map_congr_left
    intro q _
    by_cases hq : q.1 = a
    · have h1 : a ∉ tl := hnd.1
      simp [Function.comp_apply, hq, h1]
    · by_cases hq2 : q.1 ∈ tl <;>
        simp [Function.comp_apply, hq, hq2]

/-- Entries appended by step 4 for the unmatched detections. -/
def createExt (mkNew : ℕ → ℕ → Car) : List ℕ → ℕ → List (ℕ × Car)
  | [], _ => []
  | di :: rest, nid => (nid, mkNew nid di) :: createExt mkNew rest (nid + 1)

theorem createAll_eq (mkNew : ℕ → ℕ → Car) (unD : List ℕ) :
    ∀ (t : List (ℕ × Car)) (nid : ℕ),
      createAll mkNew unD t nid = (t ++ createExt mkNew unD nid, nid + unD.length) := by
  induction unD with
  | nil => intro t nid; simp [createAll, createExt]
  | cons di rest ih =>
    intro t nid
    have step : createAll mkNew (di :: rest) t nid =
        createAll mkNew rest (t ++ [(nid, mkNew nid di)]) (nid + 1) := rfl
    rw [step, ih]
    simp [createExt, List.append_assoc]
    omega

theorem createExt_key_ge (mkNew : ℕ → ℕ → Car) :
    ∀ (unD : List ℕ) (nid : ℕ) (p : ℕ × Car), p ∈ createExt mkNew unD nid → nid ≤ p.1 := by
  intro unD
  induction unD with
  | nil => intro nid p hp; simp [createExt] at hp
  | cons di rest ih =>
    intro nid p hp
    simp only [createExt, List.mem_cons] at hp
    rcases hp with hp | hp
    · rw [hp]
    · exact le_trans (Nat.le_succ nid) (ih (nid + 1) p hp)

end ListLemmas

section CarLemmas

theorem applyDet_lost (c : Car) (nh : Option Hist) (b : BBox) (conf : ℚ) :
    (c.applyDet nh b conf).lost = 0 := rfl

theorem applyDet_confidence (c : Car) (nh : Option Hist) (b : BBox) (conf : ℚ) :
    (c.applyDet nh b conf).confidence = conf := rfl

theorem applyDet_hits (c : Car) (nh : Option Hist) (b : BBox) (conf : ℚ) :
    (c.applyDet nh b conf).hits = c.hits + 1 := rfl

theorem markMissed_lost (c : Car) : (Car.markMissed c).lost = c.lost + 1 := rfl

theorem markMissed_confidence (c : Car) : (Car.markMissed c).confidence = c.confidence := rfl

theorem kalmanApplyMatched_lost (correctO : KF → (Fin 4 → ℚ) → KF)
    (histO : ℕ → ℕ → Option Hist) (dets : List Det) (tid : ℕ) (c : Car) (di : ℕ) :
    (kalmanApplyMatched correctO histO dets tid c di).lost = 0 := by
  unfold kalmanApplyMatched
  cases c.kalmanFilter <;> rfl

theorem mkNewCar_lost (id : ℕ) (d : Det) (sh : Option Hist) : (mkNewCar id d sh).lost = 0 := rfl

theorem mkNewKalmanCar_lost (id : ℕ) (d : Det) (sh : Option Hist) :
    (mkNewKalmanCar id d sh).lost = 0 := rfl

theorem kalmanPredictStep_lost (predictO : KF → KF) (c : Car) :
    (kalmanPredictStep predictO c).lost = c.lost := by
  unfold kalmanPredictStep
  cases c.kalmanFilter <;> rfl

end CarLemmas

section LifecycleFacts

variable {applyM : ℕ → Car → ℕ → Car} {mkNew : ℕ → ℕ → Car} {buffer : ℕ}
variable {tracks : List (ℕ × Car)} {asg : List (ℕ × ℕ)} {unT : List ℕ} {unD : List ℕ}
variable {nextId : ℕ}

/-- Value of a pre-existing track after lifecycle steps 2 and 3. -/
def lifecycleXform (applyM : ℕ → Car → ℕ → Car) (asg : List (ℕ × ℕ)) (unT : List ℕ)
    (tid : ℕ) (c : Car) : Car :=
  let c1 := match lookupIdx asg tid with
    | some di => applyM tid c di
    | none => c
  if tid ∈ unT then c1.markMissed else c1

/-- Steps 2-3 act entrywise on the track table. -/
theorem steps23_eq_map (hasg : (asg.map Prod.fst).Nodup) (hunT : unT.Nodup) :
    markMissedAll unT (applyMatchedAll applyM asg tracks) =
      tracks.map (fun q => (q.1, lifecycleXform applyM asg unT q.1 q.2)) := by
  rw [applyMatchedAll_eq_map applyM asg hasg, markMissedAll_eq_map unT hunT, List.map_map]
  apply List.map_congr_left
  intro q _
  unfold lifecycleXform
  cases h : lookupIdx asg q.1 with
  | none => by_cases h2 : q.1 ∈ unT <;> simp [Function.comp_apply, h, h2]
  | some di => by_cases h2 : q.1 ∈ unT <;> simp [Function.comp_apply, h, h2]

/-- The lost counter of a pre-existing track after steps 2-3: zero when it is
assigned, incremented otherwise. -/
theorem lifecycleXform_lost (hA : ∀ tid c di, (applyM tid c di).lost = 0)
    {tid : ℕ} (c : Car) (hmem : tid ∈ asg.map Prod.fst → tid ∉ unT)
    (hmem2 : tid ∉ asg.map Prod.fst → tid ∈ unT) :
    (lifecycleXform applyM asg unT tid c).lost =
      (if tid ∈ asg.map Prod.fst then 0 else c.lost + 1) := by
  unfold lifecycleXform
  by_cases h : tid ∈ asg.map Prod.fst
  · obtain ⟨di, hdi⟩ := lookupIdx_isSome_of_mem h
    rw [if_pos h, hdi, if_neg (hmem h)]
    exact hA tid c di
  · rw [if_neg h, lookupIdx_eq_none_of_not_mem h, if_pos (hmem2 h)]
    rfl

/-- Main specification of the shared lifecycle: (1) every surviving track has
lost ≤ buffer; (2) a pre-existing track's new lost value is 0 iff it was
assigned, else old + 1, and it survives exactly when that value is within the
buffer. -/
theorem runLifecycle_spec
    (hA : ∀ tid c di, (applyM tid c di).lost = 0)
    (hkeys : (tracks.map Prod.fst).Nodup)
    (hasg : (asg.map Prod.fst).Nodup)
    (hunT : unT.Nodup)
    (hunTmem : ∀ tid, tid ∈ tracks.map Prod.fst → (tid ∈ unT ↔ tid ∉ asg.map Prod.fst))
    (hid : ∀ p ∈ tracks, p.1 < nextId) :
    (∀ p ∈ (runLifecycle applyM mkNew buffer tracks asg unT unD nextId).1,
        p.2.lost ≤ buffer) ∧
    (∀ tid c, (tid, c) ∈ tracks →
      (∀ c', (tid, c') ∈ (runLifecycle applyM mkNew buffer tracks asg unT unD nextId).1 →
        c'.lost = (if tid ∈ asg.map Prod.fst then 0 else c.lost + 1)) ∧
      ((if tid ∈ asg.map Prod.fst then 0 else c.lost + 1) ≤ buffer →
        ∃ c', (tid, c') ∈ (runLifecycle applyM mkNew buffer tracks asg unT unD nextId).1 ∧
          c'.lost = (if tid ∈ asg.map Prod.fst then 0 else c.lost + 1))) := by
  have hpost :
      (runLifecycle applyM mkNew buffer tracks asg unT unD nextId).1 =
        evictExpired buffer
          ((tracks.map (fun q => (q.1, lifecycleXform applyM asg unT q.1 q.2))) ++
            createExt mkNew unD nextId) := by
    simp only [runLifecycle]
    rw [createAll_eq, steps23_eq_map hasg hunT]
  constructor
  · intro p hp
    rw [hpost] at hp
    unfold evictExpired at hp
    have := List.of_mem_filter hp
    simpa using this
  · intro tid c hmemc
    have htid : tid ∈ tracks.map Prod.fst := List.mem_map.mpr ⟨(tid, c), hmemc, rfl⟩
    have hm1 : tid ∈ asg.map Prod.fst → tid ∉ unT := by
      intro h hcon
      exact ((hunTmem tid htid).mp hcon) h
    have hm2 : tid ∉ asg.map Prod.fst → tid ∈ unT := (hunTmem tid htid).mpr
    have hlost := @lifecycleXform_lost applyM asg unT hA tid c hm1 hm2
    have hmem2 : (tid, lifecycleXform applyM asg unT tid c) ∈
        tracks.map (fun q => (q.1, lifecycleXform applyM asg unT q.1 q.2)) :=
      List.mem_map.mpr ⟨(tid, c), hmemc, rfl⟩
    constructor
    · intro c' hc'
      rw [hpost] at hc'
      unfold evictExpired at hc'
      have hc'3 := List.mem_of_mem_filter hc'
      rcases List.mem_append.mp hc'3 with hin | hin
      · -- c' is the transformed pre-existing entry
        have hnd2 : ((tracks.map (fun q => (q.1, lifecycleXform applyM asg unT q.1 q.2))).map
            Prod.fst).Nodup := by
          rw [map_fst_preserve
            (g := fun q => (q.1, lifecycleXform applyM asg unT q.1 q.2)) (fun q => rfl)]
          exact hkeys
        have := mem_unique_key hnd2 hin hmem2
        rw [this, hlost]
      · -- impossible: appended entries have fresh ids
        exfalso
        have := createExt_key_ge mkNew unD nextId _ hin
        have hlt := hid (tid, c) hmemc
        simp only at this
        omega
    · intro hle
      refine ⟨lifecycleXform applyM asg unT tid c, ?_, hlost⟩
      rw [hpost]
      unfold evictExpired
      apply List.mem_filter_of_mem (List.mem_append_left _ hmem2)
      simp only [decide_eq_true_eq]
      rw [hlost]
      exact hle

end LifecycleFacts

section MatchPlumbing

theorem getD_inj {ids : List ℕ} (hnd : ids.Nodup) {i j : ℕ} (hi : i < ids.length)
    (hj : j < ids.length) (h : ids.getD i 0 = ids.getD j 0) : i = j := by
  rw [List.getD_eq_getElem ids 0 hi, List.getD_eq_getElem ids 0 hj] at h
  exact hnd.getElem_inj_iff.mp h

theorem nodup_map_getD {ids : List ℕ} (hnd : ids.Nodup) {l : List ℕ} (hl : l.Nodup)
    (hb : ∀ i ∈ l, i < ids.length) : (l.map (fun i => ids.getD i 0)).Nodup :=
  List.Nodup.map_on (fun x hx y hy h => getD_inj hnd (hb x hx) (hb y hy) h) hl

theorem mem_map_getD_iff {ids : List ℕ} (hnd : ids.Nodup) {l : List ℕ}
    (hb : ∀ i ∈ l, i < ids.length) {i₀ : ℕ} (hi₀ : i₀ < ids.length) :
    ids.getD i₀ 0 ∈ l.map (fun i => ids.getD i 0) ↔ i₀ ∈ l := by
  constructor
  · intro h
    obtain ⟨i, hi, heq⟩ := List.mem_map.mp h
    have := getD_inj hnd (hb i hi) hi₀ heq
    rw [← this]
    exact hi
  · exact fun h => List.mem_map.mpr ⟨i₀, h, rfl⟩

theorem iouMatrixOf_eq {cars : List Car} {dets : List Det} {i di : ℕ}
    (hi : i < cars.length) (hdi : di < dets.length) :
    iouMatrixOf cars dets i di = iou (cars.getD i dummyCar).bbox
      (dets.getD di dummyDet).1 := by
  unfold iouMatrixOf
  rw [List.getD_eq_getElem cars dummyCar hi, List.getD_eq_getElem dets dummyDet hdi,
    List.get?_eq_getElem? cars i, List.get?_eq_getElem? dets di,
    List.getElem?_eq_getElem hi, List.getElem?_eq_getElem hdi]

/-- Characterisation of `Tracker._match` needed by the claims: committed
assignments are 1:1 over track ids and detection indices, every committed
pair scores at least the IoU threshold against the track's current bbox, and
the unassigned-track list is exactly the duplicate-free complement of the
assigned ids. -/
theorem trackerMatch_spec (τ : ℚ) (tracks : List (ℕ × Car)) (dets : List Det)
    (hkeys : (tracks.map Prod.fst).Nodup) :
    ((trackerMatch τ tracks dets).1.map Prod.fst).Nodup ∧
    ((trackerMatch τ tracks dets).1.map Prod.snd).Nodup ∧
    (∀ p ∈ (trackerMatch τ tracks dets).1, ∃ c, (p.1, c) ∈ tracks ∧
        p.2 < dets.length ∧ τ ≤ iou c.bbox (dets.getD p.2 dummyDet).1) ∧
    (trackerMatch τ tracks dets).2.1.Nodup ∧
    (∀ tid, tid ∈ tracks.map Prod.fst →
      (tid ∈ (trackerMatch τ tracks dets).2.1 ↔
        tid ∉ (trackerMatch τ tracks dets).1.map Prod.fst)) := by
  by_cases htriv : tracks.isEmpty ∨ dets.isEmpty
  · unfold trackerMatch
    rw [if_pos htriv]
    refine ⟨List.nodup_nil, List.nodup_nil, by simp, hkeys, ?_⟩
    intro tid htid
    simp [htid]
  · unfold trackerMatch
    rw [if_neg htriv]
    push_neg at htriv
    have hT : 0 < tracks.length := by
      cases tracks with
      | nil => exact absurd rfl htriv.1
      | cons a l => simp
    have hD : 0 < dets.length := by
      cases dets with
      | nil => exact absurd rfl htriv.2
      | cons a l => simp
    set T := tracks.length with hTdef
    set D := dets.length with hDdef
    set ids := tracks.map Prod.fst with hids
    set cars := tracks.map Prod.snd with hcars
    have hidslen : ids.length = T := by rw [hids, List.length_map]
    have hcarslen : cars.length = T := by rw [hcars, List.length_map]
    have hinv0 : GreedyInv (iouMatrixOf cars dets) τ T D
        ⟨iouMatrixOf cars dets, []⟩ :=
      ⟨List.nodup_nil, List.nodup_nil, by simp, fun a b _ _ => rfl⟩
    have hinv := greedyLoop_inv hT hD (T * D + 1) _ hinv0
    obtain ⟨hfst, hsnd, hsc, _⟩ := hinv
    set final := greedyLoop τ T D (T * D + 1) ⟨iouMatrixOf cars dets, []⟩ with hfinal
    have hbfst : ∀ i ∈ final.asg.map Prod.fst, i < ids.length := by
      intro i hi
      obtain ⟨p, hp, rfl⟩ := List.mem_map.mp hi
      rw [hidslen]
      exact (hsc p hp).1
    simp only
    refine ⟨?_, ?_, ?_, ?_, ?_⟩
    · rw [show (final.asg.map (fun p => (ids.getD p.1 0, p.2))).map Prod.fst =
          (final.asg.map Prod.fst).map (fun i => ids.getD i 0) by
        rw [List.map_map, List.map_map]; rfl]
      exact nodup_map_getD hkeys hfst hbfst
    · rw [show (final.asg.map (fun p => (ids.getD p.1 0, p.2))).map Prod.snd =
          final.asg.map Prod.snd by rw [List.map_map]; rfl]
      exact hsnd
    · intro p hp
      obtain ⟨q, hq, rfl⟩ := List.mem_map.mp hp
      obtain ⟨hq1, hq2, hq3⟩ := hsc q hq
      refine ⟨cars.getD q.1 dummyCar, ?_, hq2, ?_⟩
      · have h1 : ids.getD q.1 0 = tracks[q.1].1 := by
          rw [List.getD_eq_getElem ids 0 (by rw [hidslen]; exact hq1)]
          simp only [hids, List.getElem_map]
        have h2 : cars.getD q.1 dummyCar = tracks[q.1].2 := by
          rw [List.getD_eq_getElem cars dummyCar (by rw [hcarslen]; exact hq1)]
          simp only [hcars, List.getElem_map]
        simp only [h1, h2]
        exact List.getElem_mem hq1
      · rw [← iouMatrixOf_eq (by rw [hcarslen]; exact hq1) hq2]
        exact hq3
    · apply nodup_map_getD hkeys (List.Nodup.filter _ (List.nodup_range T))
      intro i hi
      rw [hidslen]
      exact List.mem_range.mp (List.mem_of_mem_filter hi)
    · intro tid htid
      obtain ⟨⟨i₀, hi₀lt⟩, hi₀⟩ := List.mem_iff_get.mp htid
      have hi₀T : i₀ < T := by rw [← hidslen]; exact hi₀lt
      have hgetD : ids.getD i₀ 0 = tid := by
        rw [List.getD_eq_getElem ids 0 hi₀lt, ← hi₀]
        simp [List.get_eq_getElem]
      have hmem1 : tid ∈ ((List.range T).filter
            (fun i => i ∉ final.asg.map Prod.fst)).map (fun i => ids.getD i 0) ↔
          i₀ ∈ (List.range T).filter (fun i => i ∉ final.asg.map Prod.fst) := by
        rw [← hgetD]
        apply mem_map_getD_iff hkeys _ hi₀lt
        intro i hi
        rw [hidslen]
        exact List.mem_range.mp (List.mem_of_mem_filter hi)
      have hmem2 : tid ∈ (final.asg.map (fun p => (ids.getD p.1 0, p.2))).map Prod.fst ↔
          i₀ ∈ final.asg.map Prod.fst := by
        rw [show (final.asg.map (fun p => (ids.getD p.1 0, p.2))).map Prod.fst =
            (final.asg.map Prod.fst).map (fun i => ids.getD i 0) by
          rw [List.map_map, List.map_map]; rfl, ← hgetD]
        exact mem_map_getD_iff hkeys hbfst hi₀lt
      rw [hmem1, hmem2, List.mem_filter]
      simp only [List.mem_range, decide_eq_true_eq]
      constructor
      · intro h
        exact h.2
      · intro h
        exact ⟨hi₀T, h⟩

end MatchPlumbing

section OcclusionMatchFacts

theorem dictInsert_map_fst (l : List (ℕ × ℕ)) (k v : ℕ) :
    (dictInsert l k v).map Prod.fst =
      if k ∈ l.map Prod.fst then l.map Prod.fst else l.map Prod.fst ++ [k] := by
  unfold dictInsert
  by_cases h : k ∈ l.map Prod.fst
  · rw [if_pos h, if_pos h, List.map_map]
    apply List.map_congr_left
    intro q _
    by_cases hq : q.1 = k <;> simp [Function.comp_apply, hq]
  · rw [if_neg h, if_neg h, List.map_append]
    rfl

theorem dictInsert_nodup_fst {l : List (ℕ × ℕ)} (h : (l.map Prod.fst).Nodup) (k v : ℕ) :
    ((dictInsert l k v).map Prod.fst).Nodup := by
  rw [dictInsert_map_fst]
  by_cases hm : k ∈ l.map Prod.fst
  · rw [if_pos hm]; exact h
  · rw [if_neg hm]
    simp [List.nodup_append, h, hm]

theorem dictInsert_mem {l : List (ℕ × ℕ)} {k v : ℕ} {p : ℕ × ℕ}
    (h : p ∈ dictInsert l k v) : p ∈ l ∨ p = (k, v) := by
  unfold dictInsert at h
  by_cases hm : k ∈ l.map Prod.fst
  · rw [if_pos hm] at h
    obtain ⟨q, hq, hqe⟩ := List.mem_map.mp h
    by_cases hq1 : q.1 = k
    · right; rw [← hqe]; simp [hq1]
    · left; rw [← hqe]; simpa [hq1] using hq
  · rw [if_neg hm] at h
    rcases List.mem_append.mp h with h | h
    · exact Or.inl h
    · exact Or.inr (List.mem_singleton.mp h)

theorem dictInsert_not_mem {l : List (ℕ × ℕ)} {k : ℕ} (h : k ∉ l.map Prod.fst) (v : ℕ) :
    dictInsert l k v = l ++ [(k, v)] := by
  unfold dictInsert
  rw [if_neg h]

/-- The fragment merger never empties a nonempty detection list. -/
theorem mergeFragments_ne_nil (cfg : OccCfg) (dets : List Det) (h : dets ≠ []) :
    mergeFragments cfg dets ≠ [] := by
  unfold mergeFragments
  by_cases hd : dets.length ≤ 1 ∨ cfg.fragmentIou ≤ 0
  · rw [if_pos hd]; exact h
  · rw [if_neg hd]
    cases dets with
    | nil => exact absurd rfl h
    | cons d rest =>
      have hr : List.range (d :: rest).length = 0 :: (List.range rest.length).map (· + 1) := by
        rw [List.length_cons, List.range_succ_eq_map]
      rw [hr]
      unfold mergeOuter
      simp only [List.not_mem_nil, if_false]
      split
      · simp_all
      · split <;> simp

/-- Invariant of the Phase-1 loop of `OcclusionTracker._match`: assignment
keys are duplicate-free and all refer to active tracks. -/
def OccP1Inv (activeIds : List ℕ) (s : OccP1State) : Prop :=
  (s.asg.map Prod.fst).Nodup ∧ ∀ p ∈ s.asg, p.1 ∈ activeIds

theorem occP1Step_inv {τ : ℚ} {activeIds : List ℕ} {T D : ℕ} {s s2 : OccP1State}
    (hT : 0 < T) (hD : 0 < D) (hlen : activeIds.length = T)
    (hinv : OccP1Inv activeIds s) (hstep : occP1Step τ activeIds T D s = some s2) :
    OccP1Inv activeIds s2 := by
  unfold occP1Step at hstep
  by_cases hτ : s.mat (argmaxGrid s.mat T D).1 (argmaxGrid s.mat T D).2 < τ
  · simp [hτ] at hstep
  · simp only [hτ, if_false, Option.some.injEq] at hstep
    subst hstep
    obtain ⟨hb1, _⟩ := argmaxGrid_bounds s.mat hT hD
    have hklt : (argmaxGrid s.mat T D).1 < activeIds.length := by rw [hlen]; exact hb1
    have hkmem : activeIds.getD (argmaxGrid s.mat T D).1 0 ∈ activeIds := by
      rw [List.getD_eq_getElem activeIds 0 hklt]
      exact List.getElem_mem hklt
    refine ⟨dictInsert_nodup_fst hinv.1 _ _, ?_⟩
    intro p hp
    rcases dictInsert_mem hp with h | h
    · exact hinv.2 p h
    · rw [h]
      exact hkmem

theorem occP1Loop_inv {τ : ℚ} {activeIds : List ℕ} {T D : ℕ}
    (hT : 0 < T) (hD : 0 < D) (hlen : activeIds.length = T) :
    ∀ (fuel : ℕ) (s : OccP1State), OccP1Inv activeIds s →
      OccP1Inv activeIds (occP1Loop τ activeIds T D fuel s) := by
  intro fuel
  induction fuel with
  | zero => intro s h; exact h
  | succ n ih =>
    intro s h
    unfold occP1Loop
    cases hstep : occP1Step τ activeIds T D s with
    | none => exact h
    | some s2 => exact ih s2 (occP1Step_inv hT hD hlen h hstep)

theorem insertDesc_mem {a x : Cand} {l : List Cand} :
    x ∈ insertDesc a l ↔ x = a ∨ x ∈ l := by
  induction l with
  | nil => simp [insertDesc]
  | cons b tl ih =>
    unfold insertDesc
    by_cases h : candGT a b = true
    · rw [if_pos h]
      simp [List.mem_cons]
    · rw [if_neg h]
      simp only [List.mem_cons, ih]
      tauto

theorem sortCandsDesc_mem {x : Cand} {l : List Cand} :
    x ∈ sortCandsDesc l ↔ x ∈ l := by
  have key : ∀ (l : List Cand) (acc : List Cand),
      x ∈ l.foldl (fun acc a => insertDesc a acc) acc ↔ x ∈ acc ∨ x ∈ l := by
    intro l
    induction l with
    | nil => intro acc; simp
    | cons a tl ih =>
      intro acc
      simp only [List.foldl_cons, ih, insertDesc_mem, List.mem_cons]
      tauto
  unfold sortCandsDesc
  rw [key]
  simp

/-- Provenance of a Phase-2 candidate: its track id belongs to a lost-table
entry that passed the hits ≥ 4 and lost ≤ 10 cut-offs, and its detection index
is an unused in-range merged index. -/
theorem occlusionCandidates_mem {cfg : OccCfg} {staticO : StaticO}
    {scoreFn : Car → BBox → ℚ} {lostTracks : List (ℕ × Car)} {mdets : List Det}
    {usedDets : List ℕ} {c : Cand}
    (h : c ∈ occlusionCandidates cfg staticO scoreFn lostTracks mdets usedDets) :
    ∃ car, (c.tid, car) ∈ lostTracks ∧ 4 ≤ car.hits ∧ car.lost ≤ 10 ∧
      c.di < mdets.length ∧ c.di ∉ usedDets := by
  unfold occlusionCandidates at h
  obtain ⟨p, hp, hc⟩ := List.mem_flatMap.mp h
  split at hc
  · simp at hc
  · split at hc
    · simp at hc
    · obtain ⟨di, hdi, hsome⟩ := List.mem_filterMap.mp hc
      by_cases hused : di ∈ usedDets
      · rw [if_pos hused] at hsome
        exact absurd hsome (by simp)
      · rw [if_neg hused] at hsome
        simp only [] at hsome
        repeat' split at hsome
        all_goals
          first
          | exact Option.noConfusion hsome
          | {
            have hce := Option.some.inj hsome
            rw [← hce]
            exact ⟨p.2, hp, le_of_not_lt (by assumption), le_of_not_lt (by assumption),
              List.mem_range.mp hdi, hused⟩ }

/-- Committed assignments keep duplicate-free keys. -/
theorem commitCands_nodup_fst {cands : List Cand} {asg : List (ℕ × ℕ)} {used : List ℕ}
    (h : (asg.map Prod.fst).Nodup) :
    (((commitCands cands asg used).1.map Prod.fst)).Nodup := by
  unfold commitCands
  induction cands generalizing asg used with
  | nil => exact h
  | cons c tl ih =>
    simp only [List.foldl_cons]
    by_cases hc : c.tid ∈ asg.map Prod.fst ∨ c.di ∈ used
    · rw [if_pos hc]
      exact ih h
    · rw [if_neg hc]
      push_neg at hc
      apply ih
      simp [List.nodup_append, h, hc.1]

/-- Provenance of a committed assignment: it was already present before the
Phase-2 commitment loop, or it comes from one of the sorted candidates. -/
theorem commitCands_mem {cands : List Cand} {asg : List (ℕ × ℕ)} {used : List ℕ}
    {p : ℕ × ℕ} (h : p ∈ (commitCands cands asg used).1) :
    p ∈ asg ∨ ∃ c ∈ cands, p = (c.tid, c.di) := by
  unfold commitCands at h
  induction cands generalizing asg used with
  | nil => exact Or.inl h
  | cons c tl ih =>
    simp only [List.foldl_cons] at h
    by_cases hc : c.tid ∈ asg.map Prod.fst ∨ c.di ∈ used
    · rw [if_pos hc] at h
      rcases ih h with h2 | h2
      · exact Or.inl h2
      · obtain ⟨c2, hc2, he⟩ := h2
        exact Or.inr ⟨c2, List.mem_cons_of_mem _ hc2, he⟩
    · rw [if_neg hc] at h
      rcases ih h with h2 | h2
      · rcases List.mem_append.mp h2 with h3 | h3
        · exact Or.inl h3
        · exact Or.inr ⟨c, List.mem_cons_self _ _, List.mem_singleton.mp h3⟩
      · obtain ⟨c2, hc2, he⟩ := h2
        exact Or.inr ⟨c2, List.mem_cons_of_mem _ hc2, he⟩

/-- Characterisation of `OcclusionTracker._match` needed by the claims:
assignment keys are duplicate-free; the unassigned-track list is exactly the
complement of the assigned keys; every assigned key belongs either to an
active (lost = 0) track or to a lost track that passed the hardcoded Phase-2
eligibility cut-offs (hits ≥ 4 and lost ≤ 10). -/
theorem occlusionMatch_spec (cfg : OccCfg) (staticO : StaticO)
    (scoreFn : Car → BBox → ℚ) (tracks : List (ℕ × Car)) (dets : List Det) :
    ((occlusionMatch cfg staticO scoreFn tracks dets).1.map Prod.fst).Nodup ∧
    ((occlusionMatch cfg staticO scoreFn tracks dets).2.1 =
      (tracks.map Prod.fst).filter
        (fun tid => tid ∉ (occlusionMatch cfg staticO scoreFn tracks dets).1.map Prod.fst)) ∧
    (∀ p ∈ (occlusionMatch cfg staticO scoreFn tracks dets).1,
      (∃ c, (p.1, c) ∈ tracks ∧ c.lost = 0) ∨
      (∃ c, (p.1, c) ∈ tracks ∧ 0 < c.lost ∧ 4 ≤ c.hits ∧ c.lost ≤ 10)) := by
  unfold occlusionMatch
  by_cases hempty : dets.isEmpty
  · rw [if_pos hempty]
    refine ⟨List.nodup_nil, ?_, by simp⟩
    simp
  · rw [if_neg hempty]
    simp only
    set mdets := mergeFragments cfg dets with hmdets
    set active := tracks.filter (fun p => p.2.lost = 0) with hactive
    set lostT := tracks.filter (fun p => 0 < p.2.lost) with hlostT
    set T := active.length with hTdef
    set D := mdets.length with hDdef
    have hp1 : OccP1Inv (active.map Prod.fst)
        (if active.isEmpty then OccP1State.mk (fun _ _ => 0) [] []
         else occP1Loop cfg.iouThreshold (active.map Prod.fst) T D (T * D + 1)
           ⟨iouMatrixOf (active.map Prod.snd) mdets, [], []⟩) := by
      by_cases hae : active.isEmpty
      · rw [if_pos hae]
        exact ⟨List.nodup_nil, by simp⟩
      · rw [if_neg hae]
        have hT : 0 < T := by
          rw [hTdef]
          cases h2 : active with
          | nil => rw [h2] at hae; simp at hae
          | cons a l => simp [h2]
        have hD : 0 < D := by
          rw [hDdef]
          have := mergeFragments_ne_nil cfg dets (by
            cases dets with
            | nil => simp at hempty
            | cons d l => simp)
          rw [← hmdets] at this
          cases h2 : mdets with
          | nil => exact absurd h2 this
          | cons a l => simp [h2]
        exact occP1Loop_inv hT hD (by rw [List.length_map]) (T * D + 1) _
          ⟨List.nodup_nil, by simp⟩
    set p1 := (if active.isEmpty then OccP1State.mk (fun _ _ => 0) [] []
         else occP1Loop cfg.iouThreshold (active.map Prod.fst) T D (T * D + 1)
           ⟨iouMatrixOf (active.map Prod.snd) mdets, [], []⟩) with hp1def
    refine ⟨?_, ?_, ?_⟩
    · exact commitCands_nodup_fst hp1.1
    · trivial
    intro p hp
    rcases commitCands_mem hp with h | h
    · -- committed by Phase 1: key of an active track
      left
      obtain ⟨q, hq, hqe⟩ := List.mem_map.mp (hp1.2 p h)
      have hq2 := List.mem_filter.mp hq
      refine ⟨q.2, ?_, by simpa using hq2.2⟩
      rw [← hqe]
      exact hq2.1
    · -- committed by Phase 2: candidate of an eligible lost track
      right
      obtain ⟨c, hc, hpe⟩ := h
      obtain ⟨car, hcar, h4, h10, _, _⟩ :=
        occlusionCandidates_mem (sortCandsDesc_mem.mp hc)
      have hcar2 := List.mem_filter.mp hcar
      refine ⟨car, ?_, by simpa using hcar2.2, h4, h10⟩
      rw [hpe]
      exact hcar2.1

end OcclusionMatchFacts

section KalmanMatchFacts

/-- Invariant of the Phase-1 acceptance fold of `KalmanTracker.update`:
committed pairs are 1:1, trace back to an active-table entry scoring at least
the IoU threshold, and are disjoint from the (id, detection) pairs the not yet
processed optimal-assignment rows would commit. -/
def KP1Inv (active : List (ℕ × Car)) (dets : List Det) (τ : ℚ)
    (rest : List (ℕ × ℕ)) (asg : List (ℕ × ℕ)) : Prop :=
  (asg.map Prod.fst).Nodup ∧ (asg.map Prod.snd).Nodup ∧
  (∀ p ∈ asg, ∃ c, (p.1, c) ∈ active ∧ p.2 < dets.length ∧
      τ ≤ iou (c.predictedBbox.getD c.bbox) (dets.getD p.2 dummyDet).1) ∧
  (∀ p ∈ asg, ∀ rc ∈ rest,
      p.1 ≠ (active.map Prod.fst).getD rc.1 0 ∧ p.2 ≠ rc.2)

theorem kalmanPhase1_inv (τ : ℚ) (active : List (ℕ × Car)) (dets : List Det)
    (hids : (active.map Prod.fst).Nodup) :
    ∀ (lsa : List (ℕ × ℕ)) (asg : List (ℕ × ℕ)),
      (lsa.map Prod.fst).Nodup →
      (lsa.map Prod.snd).Nodup →
      (∀ rc ∈ lsa, rc.1 < active.length) →
      KP1Inv active dets τ lsa asg →
      KP1Inv active dets τ []
        (lsa.foldl
          (fun acc rc =>
            match (active.map Prod.snd).get? rc.1, dets.get? rc.2 with
            | some c, some d =>
              if τ ≤ iou (c.predictedBbox.getD c.bbox) d.1 then
                dictInsert acc ((active.map Prod.fst).getD rc.1 0) rc.2
              else acc
            | _, _ => acc)
          asg) := by
  intro lsa
  induction lsa with
  | nil => intro asg _ _ _ h; exact h
  | cons rc rest ih =>
    intro asg hf hs hb hinv
    simp only [List.map_cons, List.nodup_cons] at hf hs
    obtain ⟨hN1, hN2, hprov, hfresh⟩ := hinv
    simp only [List.foldl_cons]
    have hweak : ∀ (acc : List (ℕ × ℕ)), KP1Inv active dets τ (rc :: rest) acc →
        KP1Inv active dets τ rest acc := by
      intro acc ⟨a, b, c, d⟩
      exact ⟨a, b, c, fun p hp rc2 hrc2 => d p hp rc2 (List.mem_cons_of_mem _ hrc2)⟩
    apply ih _ hf.2 hs.2 (fun rc2 h2 => hb rc2 (List.mem_cons_of_mem _ h2))
    -- establish the invariant for the new accumulator
    cases hc : (active.map Prod.snd).get? rc.1 with
    | none => exact hweak asg ⟨hN1, hN2, hprov, hfresh⟩
    | some c =>
      cases hd : dets.get? rc.2 with
      | none => exact hweak asg ⟨hN1, hN2, hprov, hfresh⟩
      | some d =>
        simp only
        by_cases hiou : τ ≤ iou (c.predictedBbox.getD c.bbox) d.1
        · rw [if_pos hiou]
          have hrc1 : rc.1 < active.length := hb rc (List.mem_cons_self _ _)
          have hrc1' : rc.1 < (active.map Prod.fst).length := by
            rw [List.length_map]; exact hrc1
          have hrc2len : rc.2 < dets.length := by
            by_contra hcon
            rw [List.get?_eq_getElem? dets rc.2, List.getElem?_eq_none (le_of_not_lt hcon)]
              at hd
            exact Option.noConfusion hd
          have htidfresh : (active.map Prod.fst).getD rc.1 0 ∉ asg.map Prod.fst := by
            intro hmem
            obtain ⟨p, hp, hpe⟩ := List.mem_map.mp hmem
            exact ((hfresh p hp rc (List.mem_cons_self _ _)).1) hpe
          have hdifresh : rc.2 ∉ asg.map Prod.snd := by
            intro hmem
            obtain ⟨p, hp, hpe⟩ := List.mem_map.mp hmem
            exact ((hfresh p hp rc (List.mem_cons_self _ _)).2) hpe
          rw [dictInsert_not_mem htidfresh]
          have hcval : c = (active.map Prod.snd).getD rc.1 dummyCar := by
            rw [List.getD_eq_getElem (active.map Prod.snd) dummyCar
              (by rw [List.length_map]; exact hrc1)]
            rw [List.get?_eq_getElem? ] at hc
            rw [List.getElem?_eq_getElem (by rw [List.length_map]; exact hrc1)] at hc
            exact (Option.some.inj hc).symm
          have hdval : d = dets.getD rc.2 dummyDet := by
            rw [List.getD_eq_getElem dets dummyDet hrc2len]
            rw [List.get?_eq_getElem?] at hd
            rw [List.getElem?_eq_getElem hrc2len] at hd
            exact (Option.some.inj hd).symm
          refine ⟨?_, ?_, ?_, ?_⟩
          · simp only [List.map_append, List.map_cons, List.map_nil]
            rw [List.nodup_append]
            exact ⟨hN1, List.nodup_singleton _, by
              intro a ha hb2
              rw [List.mem_singleton.mp hb2] at ha
              exact htidfresh ha⟩
          · simp only [List.map_append, List.map_cons, List.map_nil]
            rw [List.nodup_append]
            exact ⟨hN2, List.nodup_singleton _, by
              intro a ha hb2
              rw [List.mem_singleton.mp hb2] at ha
              exact hdifresh ha⟩
          · intro p hp
            rcases List.mem_append.mp hp with hp | hp
            · exact hprov p hp
            · rw [List.mem_singleton.mp hp]
              refine ⟨c, ?_, hrc2len, by rw [← hdval]; exact hiou⟩
              have e1 : (active.map Prod.fst).getD rc.1 0 = active[rc.1].1 := by
                rw [List.getD_eq_getElem (active.map Prod.fst) 0 hrc1']
                simp [List.getElem_map]
              have e2 : c = active[rc.1].2 := by
                rw [hcval, List.getD_eq_getElem (active.map Prod.snd) dummyCar
                  (by rw [List.length_map]; exact hrc1)]
                simp [List.getElem_map]
              rw [e1, e2]
              exact List.getElem_mem hrc1
          · intro p hp rc2 hrc2
            rcases List.mem_append.mp hp with hp | hp
            · exact hfresh p hp rc2 (List.mem_cons_of_mem _ hrc2)
            · rw [List.mem_singleton.mp hp]
              have hrc2b : rc2.1 < active.length := hb rc2 (List.mem_cons_of_mem _ hrc2)
              constructor
              · intro he
                have := getD_inj hids hrc1'
                  (by rw [List.length_map]; exact hrc2b) he
                apply hf.1
                rw [this]
                exact List.mem_map.mpr ⟨rc2, hrc2, rfl⟩
              · intro he
                apply hs.1
                rw [he]
                exact List.mem_map.mpr ⟨rc2, hrc2, rfl⟩
        · rw [if_neg hiou]
          exact hweak asg ⟨hN1, hN2, hprov, hfresh⟩

/-- Invariant of the Phase-2 acceptance fold of `KalmanTracker.update`:
committed pairs are 1:1; each is a Phase-1 pair or re-identifies a lost-table
entry with at least 2 hits to a leftover detection; all are disjoint from the
pairs the unprocessed optimal-assignment rows would commit. -/
def KP2Inv (lostT : List (ℕ × Car)) (unD : List ℕ) (base : List (ℕ × ℕ))
    (rest : List (ℕ × ℕ)) (asg : List (ℕ × ℕ)) : Prop :=
  (asg.map Prod.fst).Nodup ∧ (asg.map Prod.snd).Nodup ∧
  (∀ p ∈ asg, p ∈ base ∨ ∃ c, (p.1, c) ∈ lostT ∧ 2 ≤ c.hits ∧ p.2 ∈ unD) ∧
  (∀ p ∈ asg, ∀ rc ∈ rest,
      p.1 ≠ (lostT.map Prod.fst).getD rc.1 0 ∧ p.2 ≠ unD.getD rc.2 0)

/-- A finite Phase-2 matrix entry certifies that its row's track has at least
2 hits. -/
theorem kalmanDistMatrix_some_hits {mthresh : ℚ} {lostCars : List Car} {unD : List ℕ}
    {dets : List Det} {i j : ℕ} {d : MDist}
    (h : kalmanDistMatrix mthresh lostCars unD dets i j = some d) :
    ∀ c, lostCars.get? i = some c → 2 ≤ c.hits := by
  intro c hc
  unfold kalmanDistMatrix at h
  rw [hc] at h
  cases hj : unD.get? j with
  | none => rw [hj] at h; exact Option.noConfusion h
  | some dIdx =>
    rw [hj] at h
    dsimp only at h
    by_cases h2 : c.hits < 2
    · rw [if_pos h2] at h
      exact Option.noConfusion h
    · exact le_of_not_lt h2

theorem kalmanPhase2_inv (mthresh : ℚ) (lostT : List (ℕ × Car)) (unD : List ℕ)
    (dets : List Det) (hids : (lostT.map Prod.fst).Nodup) (hunD : unD.Nodup) :
    ∀ (lsa : List (ℕ × ℕ)) (asg base : List (ℕ × ℕ)),
      (lsa.map Prod.fst).Nodup →
      (lsa.map Prod.snd).Nodup →
      (∀ rc ∈ lsa, rc.1 < lostT.length ∧ rc.2 < unD.length) →
      KP2Inv lostT unD base lsa asg →
      KP2Inv lostT unD base []
        (kalmanPhase2Commit mthresh (lostT.map Prod.fst) (lostT.map Prod.snd)
          unD dets lsa asg) := by
  intro lsa
  induction lsa with
  | nil => intro asg base _ _ _ h; exact h
  | cons rc rest ih =>
    intro asg base hf hs hb hinv
    simp only [List.map_cons, List.nodup_cons] at hf hs
    obtain ⟨hN1, hN2, hprov, hfresh⟩ := hinv
    have hstep : kalmanPhase2Commit mthresh (lostT.map Prod.fst) (lostT.map Prod.snd)
        unD dets (rc :: rest) asg =
      kalmanPhase2Commit mthresh (lostT.map Prod.fst) (lostT.map Prod.snd) unD dets rest
        (match (lostT.map Prod.snd).get? rc.1 with
         | none => asg
         | some c =>
           match kalmanDistMatrix mthresh (lostT.map Prod.snd) unD dets rc.1 rc.2 with
           | none => asg
           | some d =>
             if d.ltQ (mthresh * (if 15 < c.lost then (3 : ℚ) / 2 else 1)) then
               dictInsert asg ((lostT.map Prod.fst).getD rc.1 0) (unD.getD rc.2 0)
             else asg) := rfl
    rw [hstep]
    have hweak : ∀ (acc : List (ℕ × ℕ)), KP2Inv lostT unD base (rc :: rest) acc →
        KP2Inv lostT unD base rest acc := by
      intro acc ⟨a, b, c, d⟩
      exact ⟨a, b, c, fun p hp rc2 hrc2 => d p hp rc2 (List.mem_cons_of_mem _ hrc2)⟩
    apply ih _ base hf.2 hs.2 (fun rc2 h2 => hb rc2 (List.mem_cons_of_mem _ h2))
    cases hc : (lostT.map Prod.snd).get? rc.1 with
    | none => exact hweak asg ⟨hN1, hN2, hprov, hfresh⟩
    | some c =>
      simp only
      cases hm : kalmanDistMatrix mthresh (lostT.map Prod.snd) unD dets rc.1 rc.2 with
      | none => exact hweak asg ⟨hN1, hN2, hprov, hfresh⟩
      | some d =>
        dsimp only
        by_cases hlt : d.ltQ (mthresh * (if 15 < c.lost then (3 : ℚ) / 2 else 1)) = true
        · rw [if_pos hlt]
          obtain ⟨hrcb1, hrcb2⟩ := hb rc (List.mem_cons_self _ _)
          have hrc1' : rc.1 < (lostT.map Prod.fst).length := by
            rw [List.length_map]; exact hrcb1
          have htidfresh : (lostT.map Prod.fst).getD rc.1 0 ∉ asg.map Prod.fst := by
            intro hmem
            obtain ⟨p, hp, hpe⟩ := List.mem_map.mp hmem
            exact ((hfresh p hp rc (List.mem_cons_self _ _)).1) hpe
          have hdifresh : unD.getD rc.2 0 ∉ asg.map Prod.snd := by
            intro hmem
            obtain ⟨p, hp, hpe⟩ := List.mem_map.mp hmem
            exact ((hfresh p hp rc (List.mem_cons_self _ _)).2) hpe
          rw [dictInsert_not_mem htidfresh]
          refine ⟨?_, ?_, ?_, ?_⟩
          · simp only [List.map_append, List.map_cons, List.map_nil]
            rw [List.nodup_append]
            exact ⟨hN1, List.nodup_singleton _, by
              intro a ha hb2
              rw [List.mem_singleton.mp hb2] at ha
              exact htidfresh ha⟩
          · simp only [List.map_append, List.map_cons, List.map_nil]
            rw [List.nodup_append]
            exact ⟨hN2, List.nodup_singleton _, by
              intro a ha hb2
              rw [List.mem_singleton.mp hb2] at ha
              exact hdifresh ha⟩
          · intro p hp
            rcases List.mem_append.mp hp with hp | hp
            · exact hprov p hp
            · rw [List.mem_singleton.mp hp]
              right
              have hcval : c = lostT[rc.1].2 := by
                rw [List.get?_eq_getElem?] at hc
                rw [List.getElem?_eq_getElem (by rw [List.length_map]; exact hrcb1)] at hc
                have := (Option.some.inj hc).symm
                rw [this]
                simp [List.getElem_map]
              refine ⟨c, ?_, kalmanDistMatrix_some_hits hm c hc, ?_⟩
              · have e1 : (lostT.map Prod.fst).getD rc.1 0 = lostT[rc.1].1 := by
                  rw [List.getD_eq_getElem (lostT.map Prod.fst) 0 hrc1']
                  simp [List.getElem_map]
                rw [e1, hcval]
                exact List.getElem_mem hrcb1
              · rw [List.getD_eq_getElem unD 0 hrcb2]
                exact List.getElem_mem hrcb2
          · intro p hp rc2 hrc2
            rcases List.mem_append.mp hp with hp | hp
            · exact hfresh p hp rc2 (List.mem_cons_of_mem _ hrc2)
            · rw [List.mem_singleton.mp hp]
              obtain ⟨hrc21, hrc22⟩ := hb rc2 (List.mem_cons_of_mem _ hrc2)
              constructor
              · intro he
                have := getD_inj hids hrc1' (by rw [List.length_map]; exact hrc21) he
                apply hf.1
                rw [this]
                exact List.mem_map.mpr ⟨rc2, hrc2, rfl⟩
              · intro he
                have := getD_inj hunD hrcb2 hrc22 he
                apply hs.1
                rw [this]
                exact List.mem_map.mpr ⟨rc2, hrc2, rfl⟩
        · rw [if_neg hlt]
          exact hweak asg ⟨hN1, hN2, hprov, hfresh⟩

/-- Characterisation of the two-phase Kalman assignment, under scipy's
documented `linear_sum_assignment` contract (duplicate-free, in-range row and
column indices): the combined assignment is 1:1; Phase-1 pairs trace back to
an active track whose (predicted) bbox reaches the IoU threshold on the
assigned detection; every other pair re-identifies a lost track with at least
2 hits. -/
theorem kalmanAssign_spec (cfg : KalCfg) (lsa1 lsa2 : List (ℕ × ℕ))
    (tracksP : List (ℕ × Car)) (dets : List Det)
    (hkeys : (tracksP.map Prod.fst).Nodup)
    (h1f : (lsa1.map Prod.fst).Nodup) (h1s : (lsa1.map Prod.snd).Nodup)
    (h1b : ∀ rc ∈ lsa1, rc.1 < (tracksP.filter (fun p => p.2.lost = 0)).length)
    (h2f : (lsa2.map Prod.fst).Nodup) (h2s : (lsa2.map Prod.snd).Nodup)
    (h2b : ∀ rc ∈ lsa2, rc.1 < (tracksP.filter (fun p => 0 < p.2.lost)).length ∧
        rc.2 < ((List.range dets.length).filter
          (fun i => i ∉ (kalmanAssign cfg lsa1 lsa2 tracksP dets).1.map Prod.snd)).length) :
    ((kalmanAssign cfg lsa1 lsa2 tracksP dets).2.map Prod.fst).Nodup ∧
    ((kalmanAssign cfg lsa1 lsa2 tracksP dets).2.map Prod.snd).Nodup ∧
    (∀ p ∈ (kalmanAssign cfg lsa1 lsa2 tracksP dets).1, ∃ c, (p.1, c) ∈ tracksP ∧
        c.lost = 0 ∧ p.2 < dets.length ∧
        cfg.iouThreshold ≤ iou (c.predictedBbox.getD c.bbox) (dets.getD p.2 dummyDet).1) ∧
    (∀ p ∈ (kalmanAssign cfg lsa1 lsa2 tracksP dets).2,
        p ∈ (kalmanAssign cfg lsa1 lsa2 tracksP dets).1 ∨
        ∃ c, (p.1, c) ∈ tracksP ∧ 0 < c.lost ∧ 2 ≤ c.hits) := by
  set active := tracksP.filter (fun p => p.2.lost = 0) with hactive
  set lostT := tracksP.filter (fun p => 0 < p.2.lost) with hlostT
  have hactiveN : (active.map Prod.fst).Nodup :=
    List.Nodup.sublist (List.Sublist.map Prod.fst (List.filter_sublist tracksP)) hkeys
  have hlostN : (lostT.map Prod.fst).Nodup :=
    List.Nodup.sublist (List.Sublist.map Prod.fst (List.filter_sublist tracksP)) hkeys
  set asg1 := (if active.isEmpty ∨ dets.isEmpty then []
    else kalmanPhase1 cfg.iouThreshold (active.map Prod.fst) (active.map Prod.snd)
      dets lsa1) with hasg1
  have hA1 : (asg1.map Prod.fst).Nodup ∧ (asg1.map Prod.snd).Nodup ∧
      (∀ p ∈ asg1, ∃ c, (p.1, c) ∈ active ∧ p.2 < dets.length ∧
        cfg.iouThreshold ≤ iou (c.predictedBbox.getD c.bbox) (dets.getD p.2 dummyDet).1) := by
    rw [hasg1]
    by_cases hcase : active.isEmpty ∨ dets.isEmpty
    · rw [if_pos hcase]
      exact ⟨List.nodup_nil, List.nodup_nil, by simp⟩
    · rw [if_neg hcase]
      have := kalmanPhase1_inv cfg.iouThreshold active dets hactiveN lsa1 [] h1f h1s h1b
        ⟨List.nodup_nil, List.nodup_nil, by simp, by simp⟩
      exact ⟨this.1, this.2.1, this.2.2.1⟩
  have hprov1 : ∀ p ∈ asg1, ∃ c, (p.1, c) ∈ tracksP ∧ c.lost = 0 ∧ p.2 < dets.length ∧
      cfg.iouThreshold ≤ iou (c.predictedBbox.getD c.bbox) (dets.getD p.2 dummyDet).1 := by
    intro p hp
    obtain ⟨c, hc, h2, h3⟩ := hA1.2.2 p hp
    have := List.mem_filter.mp hc
    exact ⟨c, this.1, by simpa using this.2, h2, h3⟩
  set unD1 := (List.range dets.length).filter (fun i => i ∉ asg1.map Prod.snd) with hunD1
  have hunD1N : unD1.Nodup := List.Nodup.filter _ (List.nodup_range _)
  have hcore : (kalmanAssign cfg lsa1 lsa2 tracksP dets).1 = asg1 := rfl
  have hcore2 : (kalmanAssign cfg lsa1 lsa2 tracksP dets).2 =
      (if lostT.isEmpty ∨ unD1.isEmpty then asg1
       else kalmanPhase2Commit cfg.mahalanobisThreshold (lostT.map Prod.fst)
         (lostT.map Prod.snd) unD1 dets lsa2 asg1) := rfl
  rw [hcore, hcore2]
  by_cases hcase2 : lostT.isEmpty ∨ unD1.isEmpty
  · rw [if_pos hcase2]
    exact ⟨hA1.1, hA1.2.1, hprov1, fun p hp => Or.inl hp⟩
  · rw [if_neg hcase2]
    have hinv0 : KP2Inv lostT unD1 asg1 lsa2 asg1 := by
      refine ⟨hA1.1, hA1.2.1, fun p hp => Or.inl hp, ?_⟩
      intro p hp rc hrc
      obtain ⟨hrcb1, hrcb2⟩ := h2b rc hrc
      rw [hcore] at hrcb2
      constructor
      · intro he
        obtain ⟨c, hcmem, hc0, _, _⟩ := hprov1 p hp
        have hklt : rc.1 < (lostT.map Prod.fst).length := by
          rw [List.length_map]; exact hrcb1
        have hkmem : (lostT.map Prod.fst).getD rc.1 0 ∈ lostT.map Prod.fst := by
          rw [List.getD_eq_getElem (lostT.map Prod.fst) 0 hklt]
          exact List.getElem_mem hklt
        obtain ⟨q, hq, hqe⟩ := List.mem_map.mp hkmem
        have hq2 := List.mem_filter.mp hq
        have hlost0 : 0 < q.2.lost := by simpa using hq2.2
        have : c = q.2 := by
          apply mem_unique_key hkeys hcmem
          rw [he, ← hqe]
          exact hq2.1
        rw [this] at hc0
        rw [hc0] at hlost0
        exact lt_irrefl 0 hlost0
      · intro he
        have hdmem : unD1.getD rc.2 0 ∈ unD1 := by
          rw [List.getD_eq_getElem unD1 0 hrcb2]
          exact List.getElem_mem hrcb2
        have := List.mem_filter.mp hdmem
        apply (by simpa using this.2 : unD1.getD rc.2 0 ∉ asg1.map Prod.snd)
        rw [← he]
        exact List.mem_map.mpr ⟨p, hp, rfl⟩
    have h2b' : ∀ rc ∈ lsa2, rc.1 < lostT.length ∧ rc.2 < unD1.length := by
      intro rc hrc
      obtain ⟨hb1, hb2⟩ := h2b rc hrc
      rw [hcore] at hb2
      exact ⟨hb1, hb2⟩
    have hres := kalmanPhase2_inv cfg.mahalanobisThreshold lostT unD1 dets hlostN hunD1N
      lsa2 asg1 asg1 h2f h2s h2b' hinv0
    refine ⟨hres.1, hres.2.1, hprov1, ?_⟩
    intro p hp
    rcases hres.2.2.1 p hp with h | h
    · exact Or.inl h
    · obtain ⟨c, hc, hh, _⟩ := h
      have := List.mem_filter.mp hc
      exact Or.inr ⟨c, this.1, by simpa using this.2, hh⟩

end KalmanMatchFacts

section PredictPositionFacts

/-- Sum of consecutive differences of a list telescopes to last minus head. -/
theorem sumConsecDiffs_eq : ∀ (l : List ℚ) (x y : ℚ),
    l.getLast? = some x → l.head? = some y → sumConsecDiffs l = x - y := by
  intro l
  induction l with
  | nil => intro x y hx _; exact Option.noConfusion hx
  | cons a tl ih =>
    intro x y hx hy
    have hya : y = a := by
      rw [List.head?_cons] at hy
      exact (Option.some.inj hy).symm
    cases tl with
    | nil =>
      have hxa : x = a := by
        rw [show ([a] : List ℚ).getLast? = some a from rfl] at hx
        exact (Option.some.inj hx).symm
      rw [hxa, hya]
      show (0 : ℚ) = a - a
      ring
    | cons b tl2 =>
      have hx2 : (b :: tl2).getLast? = some x := by
        rw [← List.getLast?_cons_cons]
        exact hx
      have hstep : sumConsecDiffs (a :: b :: tl2) = (b - a) + sumConsecDiffs (b :: tl2) := rfl
      rw [hstep, ih x b hx2 rfl, hya]
      ring

/-- The last element of a nonempty drop is the last element of the list. -/
theorem getLast?_drop {α : Type} {l : List α} {k : ℕ} (h : l.drop k ≠ []) :
    (l.drop k).getLast? = l.getLast? := by
  conv_rhs => rw [← List.take_append_drop k l]
  exact (List.getLast?_append_of_ne_nil _ h).symm

end PredictPositionFacts

/-!  ## The claims  -/

/-- Concrete box used in the C4 counterexample. -/
def c4box : BBox := (0, 0, 1, 1)

/-- C4 counterexample: the claim asserts iou(a, a) = 1 for every box a, but
the 1e-9 term the source adds to the denominator (src/utilities.py line 25)
makes iou(a, a) = 1/(1 + 1e-9) ≠ 1 already for the unit box. -/
theorem C4_counterexample : iou c4box c4box ≠ 1 := by with_unfolding_all decide

/-- C4 (amended): IoU is symmetric, lies in [0, 1], and is 0 for
non-overlapping boxes; but on a proper box a, iou(a, a) equals
area/(area + 1e-9), which is strictly less than 1 (never exactly 1). -/
theorem C4_iou_properties :
    (∀ a b : BBox, iou a b = iou b a) ∧
    (∀ a b : BBox, 0 ≤ iou a b ∧ iou a b ≤ 1) ∧
    (∀ a b : BBox, interArea a b = 0 → iou a b = 0) ∧
    (∀ a : BBox, a.1 < a.2.2.1 → a.2.1 < a.2.2.2 →
      iou a a = (boxArea a : ℚ) / ((boxArea a : ℚ) + iouEps) ∧ iou a a < 1) := by
  refine ⟨iou_comm, iou_mem_unit, ?_, ?_⟩
  · intro a b h
    unfold iou
    simp [h]
  · intro a hw hh
    have hwpos : 0 < a.2.2.1 - a.1 := by omega
    have hhpos : 0 < a.2.2.2 - a.2.1 := by omega
    have hinter : interArea a a = boxArea a := by
      unfold interArea interLen boxArea
      rw [min_self, max_self, min_self, max_self]
      rw [max_eq_right (le_of_lt hwpos), max_eq_right (le_of_lt hhpos)]
    have hareapos : 0 < boxArea a := mul_pos hwpos hhpos
    have hareaq : (0 : ℚ) < (boxArea a : ℚ) := by exact_mod_cast hareapos
    have hne : interArea a a ≠ 0 := by
      rw [hinter]
      exact ne_of_gt hareapos
    constructor
    · unfold iou
      rw [if_neg hne, hinter]
      ring_nf
    · unfold iou
      rw [if_neg hne, hinter]
      rw [div_lt_one (by unfold iouEps; linarith)]
      unfold iouEps
      linarith

/-- C4 witness: the amended theorem applied to concrete boxes — two disjoint
boxes get IoU 0, and the self-IoU of the box (0,0,4,4) equals
16/(16 + 1e-9). -/
theorem C4_iou_properties_witness :
    iou ((2, 3, 7, 9) : BBox) ((20, 20, 25, 26) : BBox) = 0 ∧
    iou ((0, 0, 4, 4) : BBox) ((0, 0, 4, 4) : BBox) =
      (boxArea ((0, 0, 4, 4) : BBox) : ℚ) / ((boxArea ((0, 0, 4, 4) : BBox) : ℚ) + iouEps) :=
  ⟨C4_iou_properties.2.2.1 (2, 3, 7, 9) (20, 20, 25, 26) (by decide),
   (C4_iou_properties.2.2.2 (0, 0, 4, 4) (by decide) (by decide)).1⟩

/-- Concrete coasting track for the C8 counterexample. -/
def c8car : Car :=
  { trackId := 1, bbox := (0, 0, 10, 10), confidence := 9 / 10, hits := 3,
    centroids := [(5, 5)] }

/-- C8 counterexample: the claim asserts confidence is 0 whenever the track is
coasting (lost > 0), but `Car.mark_missed` (src/OCCLUSION/car.py lines 90-92)
only increments `lost` and leaves the stale confidence 0.9 in place. -/
theorem C8_counterexample :
    0 < (Car.markMissed c8car).lost ∧ (Car.markMissed c8car).confidence ≠ 0 := by
  constructor
  · show 0 < c8car.lost + 1
    exact Nat.succ_pos _
  · show c8car.confidence ≠ 0
    norm_num [c8car]

/-- C8 (amended): a track's confidence equals the confidence of the last
detection matched to it; while coasting it retains that last matched value —
it is NOT reset to 0. -/
theorem C8_confidence :
    (∀ (c : Car) (nh : Option Hist) (b : BBox) (conf : ℚ),
      (c.applyDet nh b conf).confidence = conf) ∧
    (∀ c : Car, (Car.markMissed c).confidence = c.confidence) :=
  ⟨fun c nh b conf => applyDet_confidence c nh b conf, fun c => markMissed_confidence c⟩

/-- C5: for a track with at least two centroids, `_predict_position` returns
the last centroid when the track is static, and otherwise the last centroid
plus the average velocity of the last min(5, n) centroids — the telescoped
(last − first)/(k − 1) of that window — times `frames_ahead`; and the
re-identification scoring step uses frames_ahead = max(1, lost·(skip+1)),
i.e. 1 for a just-visible track and lost·(skip+1) otherwise.  The `_is_static`
predicate is an opaque Boolean parameter (it compares sums of Euclidean
norms, see `StaticO`). -/
theorem C5_linear_prediction :
    (∀ (staticO : StaticO) (t : Car) (f : ℕ), 2 ≤ t.centroids.length →
      predictPosition staticO t f =
        if staticO t then t.centroids.getLastD (0, 0)
        else
          (let n := min 5 t.centroids.length
           let recent := t.centroids.drop (t.centroids.length - n)
           let lastC := t.centroids.getLastD (0, 0)
           let firstC := recent.headD (0, 0)
           (lastC.1 + (lastC.1 - firstC.1) / ((n : ℚ) - 1) * (f : ℕ),
            lastC.2 + (lastC.2 - firstC.2) / ((n : ℚ) - 1) * (f : ℕ)))) ∧
    (∀ (cfg : OccCfg) (t : Car), scoreFramesAhead cfg t =
      if t.lost = 0 then 1 else t.lost * (cfg.skipFrames + 1)) := by
  constructor
  · intro staticO t f hlen
    unfold predictPosition
    rw [if_neg (by omega)]
    by_cases hs : staticO t
    · rw [if_pos hs, if_pos hs]
    · rw [if_neg hs, if_neg hs]
      have hn2 : 2 ≤ min 5 t.centroids.length := le_min (by omega) hlen
      have hnle : min 5 t.centroids.length ≤ t.centroids.length := min_le_right _ _
      have hreclen : (t.centroids.drop
          (t.centroids.length - min 5 t.centroids.length)).length =
          min 5 t.centroids.length := by
        rw [List.length_drop]
        omega
      have hrecne : t.centroids.drop
          (t.centroids.length - min 5 t.centroids.length) ≠ [] := by
        intro hcon
        rw [hcon] at hreclen
        simp at hreclen
        omega
      obtain ⟨lastP, hlastP⟩ : ∃ x, t.centroids.getLast? = some x := by
        cases hl : t.centroids.getLast? with
        | none =>
          rw [List.getLast?_eq_none_iff] at hl
          rw [hl] at hlen
          simp at hlen
        | some x => exact ⟨x, rfl⟩
      obtain ⟨headP, hheadP⟩ : ∃ x, (t.centroids.drop
          (t.centroids.length - min 5 t.centroids.length)).head? = some x := by
        cases hl : (t.centroids.drop (t.centroids.length - min 5 t.centroids.length)).head? with
        | none =>
          rw [List.head?_eq_none_iff] at hl
          exact absurd hl hrecne
        | some x => exact ⟨x, rfl⟩
      have hreclast : (t.centroids.drop
          (t.centroids.length - min 5 t.centroids.length)).getLast? = some lastP := by
        rw [getLast?_drop hrecne]
        exact hlastP
      have hsum1 : sumConsecDiffs ((t.centroids.drop
          (t.centroids.length - min 5 t.centroids.length)).map Prod.fst) =
          lastP.1 - headP.1 := by
        apply sumConsecDiffs_eq
        · rw [List.getLast?_map, hreclast]
          rfl
        · rw [List.head?_map, hheadP]
          rfl
      have hsum2 : sumConsecDiffs ((t.centroids.drop
          (t.centroids.length - min 5 t.centroids.length)).map Prod.snd) =
          lastP.2 - headP.2 := by
        apply sumConsecDiffs_eq
        · rw [List.getLast?_map, hreclast]
          rfl
        · rw [List.head?_map, hheadP]
          rfl
      have hlastD : t.centroids.getLastD (0, 0) = lastP := by
        rw [List.getLastD_eq_getLast?, hlastP]
        rfl
      have hheadD : (t.centroids.drop
          (t.centroids.length - min 5 t.centroids.length)).headD (0, 0) = headP := by
        rw [List.headD_eq_head?, hheadP]
        rfl
      simp only [hsum1, hsum2, hreclen, hlastD, hheadD]
  · intro cfg t
    unfold scoreFramesAhead
    by_cases h : t.lost = 0
    · rw [if_pos h, h]
      simp
    · rw [if_neg h]
      have : 1 ≤ t.lost * (cfg.skipFrames + 1) :=
        Nat.one_le_iff_ne_zero.mpr (by
          intro hcon
          rcases Nat.mul_eq_zero.mp hcon with h2 | h2
          · exact h h2
          · exact Nat.noConfusion h2)
      omega

/-- C2: for every track that exists before a call to
`OcclusionTracker.update` and survives it, the new lost counter is 0 iff the
track was matched (assigned a detection) by `_match` in that call, and if it
was not matched the counter is exactly the old value plus one. -/
theorem C2_lost_counter (cfg : OccCfg) (staticO : StaticO) (scoreFn : Car → BBox → ℚ)
    (histO : ℕ → ℕ → Option Hist) (seedHistO : ℕ → Option Hist)
    (tracks : List (ℕ × Car)) (nextId : ℕ) (dets : List Det)
    (hkeys : (tracks.map Prod.fst).Nodup) (hid : ∀ p ∈ tracks, p.1 < nextId)
    (tid : ℕ) (c c' : Car) (hpre : (tid, c) ∈ tracks)
    (hpost : (tid, c') ∈
      (occlusionUpdate cfg staticO scoreFn histO seedHistO tracks nextId dets).1) :
    (c'.lost = 0 ↔
      tid ∈ (occlusionMatch cfg staticO scoreFn tracks dets).1.map Prod.fst) ∧
    (tid ∉ (occlusionMatch cfg staticO scoreFn tracks dets).1.map Prod.fst →
      c'.lost = c.lost + 1) := by
  obtain ⟨hasgN, hunTeq, _⟩ := occlusionMatch_spec cfg staticO scoreFn tracks dets
  set M := occlusionMatch cfg staticO scoreFn tracks dets with hM
  have hunTN : M.2.1.Nodup := by
    rw [hunTeq]
    exact List.Nodup.filter _ hkeys
  have hunTmem : ∀ t2 ∈ tracks.map Prod.fst, (t2 ∈ M.2.1 ↔ t2 ∉ M.1.map Prod.fst) := by
    intro t2 ht2
    rw [hunTeq, List.mem_filter]
    simp [ht2]
  have hspec := @runLifecycle_spec
    (fun tid c di =>
      c.applyDet (histO tid di) (dets.getD di dummyDet).1 (dets.getD di dummyDet).2)
    (fun id di => mkNewCar id (dets.getD di dummyDet) (seedHistO di))
    cfg.bufferFrames tracks M.1 M.2.1 M.2.2 nextId
    (fun tid c di => applyDet_lost _ _ _ _) hkeys hasgN hunTN hunTmem hid
  have hpost2 : (tid, c') ∈ (runLifecycle
      (fun tid c di =>
        c.applyDet (histO tid di) (dets.getD di dummyDet).1 (dets.getD di dummyDet).2)
      (fun id di => mkNewCar id (dets.getD di dummyDet) (seedHistO di))
      cfg.bufferFrames tracks M.1 M.2.1 M.2.2 nextId).1 := hpost
  have hval := (hspec.2 tid c hpre).1 c' hpost2
  by_cases hmem : tid ∈ M.1.map Prod.fst
  · rw [if_pos hmem] at hval
    exact ⟨⟨fun _ => hmem, fun _ => hval⟩, fun h => absurd hmem h⟩
  · rw [if_neg hmem] at hval
    refine ⟨⟨fun h0 => ?_, fun h => absurd h hmem⟩, fun _ => hval⟩
    rw [hval] at h0
    exact absurd h0 (Nat.succ_ne_zero _)

/-- Concrete active track for the C2 witness. -/
def c2wcar : Car := { trackId := 1, bbox := (0, 0, 10, 10), centroids := [(5, 5)] }

/-- Concrete detection list for the C2 witness. -/
def c2wdets : List Det := [((0, 0, 10, 10), 1 / 2)]

/-- C2 witness: the lost-counter theorem applied to a concrete one-track,
one-detection update in which Phase 1 matches the track (IoU close to 1). -/
theorem C2_lost_counter_witness :
    ((c2wcar.applyDet none (0, 0, 10, 10) (1 / 2)).lost = 0 ↔
      1 ∈ (occlusionMatch {} (fun _ => false) (fun _ _ => 0)
        [(1, c2wcar)] c2wdets).1.map Prod.fst) ∧
    (1 ∉ (occlusionMatch {} (fun _ => false) (fun _ _ => 0)
        [(1, c2wcar)] c2wdets).1.map Prod.fst →
      (c2wcar.applyDet none (0, 0, 10, 10) (1 / 2)).lost = c2wcar.lost + 1) := by
  have hpost : (occlusionUpdate {} (fun _ => false) (fun _ _ => 0) (fun _ _ => none)
      (fun _ => none) [(1, c2wcar)] 2 c2wdets).1 =
      [(1, c2wcar.applyDet none (0, 0, 10, 10) (1 / 2))] := by
    with_unfolding_all rfl
  exact C2_lost_counter {} (fun _ => false) (fun _ _ => 0) (fun _ _ => none) (fun _ => none)
    [(1, c2wcar)] 2 c2wdets (by decide)
    (by intro p hp; rw [List.mem_singleton.mp hp]; decide)
    1 c2wcar (c2wcar.applyDet none (0, 0, 10, 10) (1 / 2))
    (List.mem_singleton.mpr rfl)
    (by rw [hpost]; exact List.mem_singleton.mpr rfl)

/-- C3: in all three tracker variants, after `update()` a pre-existing track
is present in the track table iff its post-update lost counter (0 when
matched, old value + 1 otherwise) is at most the configured buffer (`max_lost`
for `Tracker` and `KalmanTracker`, `buffer_frames` for `OcclusionTracker`);
moreover every track in the post table satisfies lost ≤ buffer.  The Kalman
conjunct assumes scipy's `linear_sum_assignment` contract for the two oracle
assignments. -/
theorem C3_eviction :
    (∀ (τ : ℚ) (maxLost : ℕ) (histO : ℕ → ℕ → Option Hist) (seedHistO : ℕ → Option Hist)
        (tracks : List (ℕ × Car)) (nextId : ℕ) (dets : List Det),
      (tracks.map Prod.fst).Nodup → (∀ p ∈ tracks, p.1 < nextId) →
      (∀ p ∈ (trackerUpdate τ maxLost histO seedHistO tracks nextId dets).1,
        p.2.lost ≤ maxLost) ∧
      (∀ tid c, (tid, c) ∈ tracks →
        (((if tid ∈ (trackerMatch τ tracks dets).1.map Prod.fst then 0 else c.lost + 1)
            ≤ maxLost →
          ∃ c', (tid, c') ∈ (trackerUpdate τ maxLost histO seedHistO tracks nextId dets).1 ∧
            c'.lost = (if tid ∈ (trackerMatch τ tracks dets).1.map Prod.fst then 0
              else c.lost + 1)) ∧
         (maxLost < (if tid ∈ (trackerMatch τ tracks dets).1.map Prod.fst then 0
              else c.lost + 1) →
          ∀ c', (tid, c') ∉
            (trackerUpdate τ maxLost histO seedHistO tracks nextId dets).1)))) ∧
    (∀ (cfg : OccCfg) (staticO : StaticO) (scoreFn : Car → BBox → ℚ)
        (histO : ℕ → ℕ → Option Hist) (seedHistO : ℕ → Option Hist)
        (tracks : List (ℕ × Car)) (nextId : ℕ) (dets : List Det),
      (tracks.map Prod.fst).Nodup → (∀ p ∈ tracks, p.1 < nextId) →
      (∀ p ∈ (occlusionUpdate cfg staticO scoreFn histO seedHistO tracks nextId dets).1,
        p.2.lost ≤ cfg.bufferFrames) ∧
      (∀ tid c, (tid, c) ∈ tracks →
        (((if tid ∈ (occlusionMatch cfg staticO scoreFn tracks dets).1.map Prod.fst then 0
              else c.lost + 1) ≤ cfg.bufferFrames →
          ∃ c', (tid, c') ∈
              (occlusionUpdate cfg staticO scoreFn histO seedHistO tracks nextId dets).1 ∧
            c'.lost = (if tid ∈ (occlusionMatch cfg staticO scoreFn tracks dets).1.map
                Prod.fst then 0 else c.lost + 1)) ∧
         (cfg.bufferFrames < (if tid ∈ (occlusionMatch cfg staticO scoreFn tracks
              dets).1.map Prod.fst then 0 else c.lost + 1) →
          ∀ c', (tid, c') ∉
            (occlusionUpdate cfg staticO scoreFn histO seedHistO tracks nextId dets).1)))) ∧
    (∀ (cfg : KalCfg) (predictO : KF → KF) (correctO : KF → (Fin 4 → ℚ) → KF)
        (lsa1 lsa2 : List (ℕ × ℕ)) (histO : ℕ → ℕ → Option Hist)
        (seedHistO : ℕ → Option Hist) (tracks : List (ℕ × Car)) (nextId : ℕ)
        (dets : List Det),
      (tracks.map Prod.fst).Nodup → (∀ p ∈ tracks, p.1 < nextId) →
      (lsa1.map Prod.fst).Nodup → (lsa1.map Prod.snd).Nodup →
      (∀ rc ∈ lsa1, rc.1 < ((tracks.map (fun p => (p.1, kalmanPredictStep predictO p.2))).filter
          (fun p => p.2.lost = 0)).length) →
      (lsa2.map Prod.fst).Nodup → (lsa2.map Prod.snd).Nodup →
      (∀ rc ∈ lsa2, rc.1 < ((tracks.map (fun p => (p.1, kalmanPredictStep predictO p.2))).filter
          (fun p => 0 < p.2.lost)).length ∧
        rc.2 < ((List.range dets.length).filter
          (fun i => i ∉ (kalmanAssign cfg lsa1 lsa2
            (tracks.map (fun p => (p.1, kalmanPredictStep predictO p.2))) dets).1.map
              Prod.snd)).length) →
      (∀ p ∈ (kalmanUpdate cfg predictO correctO lsa1 lsa2 histO seedHistO tracks
          nextId dets).1, p.2.lost ≤ cfg.maxLost) ∧
      (∀ tid c, (tid, c) ∈ tracks →
        (((if tid ∈ (kalmanAssign cfg lsa1 lsa2
              (tracks.map (fun p => (p.1, kalmanPredictStep predictO p.2))) dets).2.map
              Prod.fst then 0 else c.lost + 1) ≤ cfg.maxLost →
          ∃ c', (tid, c') ∈ (kalmanUpdate cfg predictO correctO lsa1 lsa2 histO seedHistO
              tracks nextId dets).1 ∧
            c'.lost = (if tid ∈ (kalmanAssign cfg lsa1 lsa2
              (tracks.map (fun p => (p.1, kalmanPredictStep predictO p.2))) dets).2.map
              Prod.fst then 0 else c.lost + 1)) ∧
         (cfg.maxLost < (if tid ∈ (kalmanAssign cfg lsa1 lsa2
              (tracks.map (fun p => (p.1, kalmanPredictStep predictO p.2))) dets).2.map
              Prod.fst then 0 else c.lost + 1) →
          ∀ c', (tid, c') ∉ (kalmanUpdate cfg predictO correctO lsa1 lsa2 histO seedHistO
              tracks nextId dets).1)))) := by
  refine ⟨?_, ?_, ?_⟩
  · -- base Tracker
    intro τ maxLost histO seedHistO tracks nextId dets hkeys hid
    obtain ⟨hasgN, _, _, hunTN, hunTmem⟩ := trackerMatch_spec τ tracks dets hkeys
    have hspec := @runLifecycle_spec
      (fun tid c di =>
        c.applyDet (histO tid di) (dets.getD di dummyDet).1 (dets.getD di dummyDet).2)
      (fun id di => mkNewCar id (dets.getD di dummyDet) (seedHistO di))
      maxLost tracks (trackerMatch τ tracks dets).1
      (trackerMatch τ tracks dets).2.1 (trackerMatch τ tracks dets).2.2
      nextId
      (fun tid c di => applyDet_lost _ _ _ _) hkeys hasgN hunTN hunTmem hid
    refine ⟨hspec.1, ?_⟩
    intro tid c hpre
    obtain ⟨hall, hex⟩ := hspec.2 tid c hpre
    exact ⟨fun hle => hex hle, fun hgt c' hc' => by
      have := hall c' hc'
      have h2 := hspec.1 (tid, c') hc'
      simp only at h2
      rw [this] at h2
      omega⟩
  · -- OcclusionTracker
    intro cfg staticO scoreFn histO seedHistO tracks nextId dets hkeys hid
    obtain ⟨hasgN, hunTeq, _⟩ := occlusionMatch_spec cfg staticO scoreFn tracks dets
    have hunTN : (occlusionMatch cfg staticO scoreFn tracks dets).2.1.Nodup := by
      rw [hunTeq]
      exact List.Nodup.filter _ hkeys
    have hunTmem : ∀ t2 ∈ tracks.map Prod.fst,
        (t2 ∈ (occlusionMatch cfg staticO scoreFn tracks dets).2.1 ↔
          t2 ∉ (occlusionMatch cfg staticO scoreFn tracks dets).1.map Prod.fst) := by
      intro t2 ht2
      rw [hunTeq, List.mem_filter]
      simp [ht2]
    have hspec := @runLifecycle_spec
      (fun tid c di =>
        c.applyDet (histO tid di) (dets.getD di dummyDet).1 (dets.getD di dummyDet).2)
      (fun id di => mkNewCar id (dets.getD di dummyDet) (seedHistO di))
      cfg.bufferFrames tracks
      (occlusionMatch cfg staticO scoreFn tracks dets).1
      (occlusionMatch cfg staticO scoreFn tracks dets).2.1
      (occlusionMatch cfg staticO scoreFn tracks dets).2.2 nextId
      (fun tid c di => applyDet_lost _ _ _ _) hkeys hasgN hunTN hunTmem hid
    refine ⟨hspec.1, ?_⟩
    intro tid c hpre
    obtain ⟨hall, hex⟩ := hspec.2 tid c hpre
    exact ⟨fun hle => hex hle, fun hgt c' hc' => by
      have := hall c' hc'
      have h2 := hspec.1 (tid, c') hc'
      simp only at h2
      rw [this] at h2
      omega⟩
  · -- KalmanTracker
    intro cfg predictO correctO lsa1 lsa2 histO seedHistO tracks nextId dets hkeys hid
      h1f h1s h1b h2f h2s h2b
    set tracksP := tracks.map (fun p => (p.1, kalmanPredictStep predictO p.2)) with hTP
    have hkeysP : (tracksP.map Prod.fst).Nodup := by
      rw [hTP, map_fst_preserve (g := fun p => (p.1, kalmanPredictStep predictO p.2))
        (fun q => rfl)]
      exact hkeys
    have hidP : ∀ p ∈ tracksP, p.1 < nextId := by
      intro p hp
      rw [hTP] at hp
      obtain ⟨q, hq, hqe⟩ := List.mem_map.mp hp
      rw [← hqe]
      exact hid q hq
    obtain ⟨hN1, hN2, _, _⟩ :=
      kalmanAssign_spec cfg lsa1 lsa2 tracksP dets hkeysP h1f h1s h1b h2f h2s h2b
    set asg2 := (kalmanAssign cfg lsa1 lsa2 tracksP dets).2 with hasg2
    have hunTN : ((tracksP.map Prod.fst).filter
        (fun tid => tid ∉ asg2.map Prod.fst)).Nodup := List.Nodup.filter _ hkeysP
    have hunTmem : ∀ t2 ∈ tracksP.map Prod.fst,
        (t2 ∈ (tracksP.map Prod.fst).filter (fun tid => tid ∉ asg2.map Prod.fst) ↔
          t2 ∉ asg2.map Prod.fst) := by
      intro t2 ht2
      rw [List.mem_filter]
      simp [ht2]
    have hspec := @runLifecycle_spec
      (kalmanApplyMatched correctO histO dets)
      (fun id di => mkNewKalmanCar id (dets.getD di dummyDet) (seedHistO di))
      cfg.maxLost tracksP asg2
      ((tracksP.map Prod.fst).filter (fun tid => tid ∉ asg2.map Prod.fst))
      ((List.range dets.length).filter (fun i => i ∉ asg2.map Prod.snd))
      nextId
      (fun tid c di => kalmanApplyMatched_lost _ _ _ _ _ _) hkeysP hN1 hunTN hunTmem hidP
    refine ⟨hspec.1, ?_⟩
    intro tid c hpre
    have hpreP : (tid, kalmanPredictStep predictO c) ∈ tracksP := by
      rw [hTP]
      exact List.mem_map.mpr ⟨(tid, c), hpre, rfl⟩
    obtain ⟨hall, hex⟩ := hspec.2 tid (kalmanPredictStep predictO c) hpreP
    rw [kalmanPredictStep_lost] at hall hex
    exact ⟨fun hle => hex hle, fun hgt c' hc' => by
      have := hall c' hc'
      have h2 := hspec.1 (tid, c') hc'
      simp only at h2
      rw [this] at h2
      omega⟩

/-- Concrete stale track for the C3 witness. -/
def c3wcar : Car := { trackId := 1, bbox := (0, 0, 5, 5), lost := 3, centroids := [(2, 2)] }

/-- C3 witness: the eviction theorem applied to a concrete one-track update
with no detections — the track is unmatched, its lost counter goes from 3 to
4, and since 4 ≤ max_lost = 15 it survives. -/
theorem C3_eviction_witness :
    ∃ c', (1, c') ∈ (trackerUpdate (3 / 10) 15 (fun _ _ => none) (fun _ => none)
        [(1, c3wcar)] 2 []).1 ∧ c'.lost = 4 := by
  have h := (C3_eviction.1 (3 / 10) 15 (fun _ _ => none) (fun _ => none) [(1, c3wcar)] 2 []
    (by decide) (by intro p hp; rw [List.mem_singleton.mp hp]; decide)).2 1 c3wcar
    (List.mem_singleton.mpr rfl)
  have hcond : (if 1 ∈ (trackerMatch (3 / 10) [(1, c3wcar)] ([] : List Det)).1.map Prod.fst
      then 0 else c3wcar.lost + 1) = 4 := by with_unfolding_all decide
  obtain ⟨c', hc1, hc2⟩ := h.1 (by rw [hcond]; decide)
  exact ⟨c', hc1, by rw [hc2, hcond]⟩

/-- C1: committed assignments are 1:1 and Phase-1 pairs respect the IoU
threshold.  First conjunct: the greedy matcher of `Tracker._match` — no track
id or detection index is used twice, and every committed pair has IoU at least
the threshold against the track's bbox.  Second conjunct: the Hungarian-based
`KalmanTracker.update` — under scipy's `linear_sum_assignment` contract the
combined two-phase assignment is 1:1, and every Phase-1 pair has IoU at least
the threshold against the track's predicted (or current) bbox. -/
theorem C1_one_to_one :
    (∀ (τ : ℚ) (tracks : List (ℕ × Car)) (dets : List Det),
      (tracks.map Prod.fst).Nodup →
      ((trackerMatch τ tracks dets).1.map Prod.fst).Nodup ∧
      ((trackerMatch τ tracks dets).1.map Prod.snd).Nodup ∧
      (∀ p ∈ (trackerMatch τ tracks dets).1, ∃ c, (p.1, c) ∈ tracks ∧
        p.2 < dets.length ∧ τ ≤ iou c.bbox (dets.getD p.2 dummyDet).1)) ∧
    (∀ (cfg : KalCfg) (lsa1 lsa2 : List (ℕ × ℕ)) (tracksP : List (ℕ × Car))
        (dets : List Det),
      (tracksP.map Prod.fst).Nodup →
      (lsa1.map Prod.fst).Nodup → (lsa1.map Prod.snd).Nodup →
      (∀ rc ∈ lsa1, rc.1 < (tracksP.filter (fun p => p.2.lost = 0)).length) →
      (lsa2.map Prod.fst).Nodup → (lsa2.map Prod.snd).Nodup →
      (∀ rc ∈ lsa2, rc.1 < (tracksP.filter (fun p => 0 < p.2.lost)).length ∧
        rc.2 < ((List.range dets.length).filter
          (fun i => i ∉ (kalmanAssign cfg lsa1 lsa2 tracksP dets).1.map Prod.snd)).length) →
      ((kalmanAssign cfg lsa1 lsa2 tracksP dets).2.map Prod.fst).Nodup ∧
      ((kalmanAssign cfg lsa1 lsa2 tracksP dets).2.map Prod.snd).Nodup ∧
      (∀ p ∈ (kalmanAssign cfg lsa1 lsa2 tracksP dets).1, ∃ c, (p.1, c) ∈ tracksP ∧
        c.lost = 0 ∧ p.2 < dets.length ∧
        cfg.iouThreshold ≤ iou (c.predictedBbox.getD c.bbox) (dets.getD p.2 dummyDet).1)) := by
  constructor
  · intro τ tracks dets hkeys
    obtain ⟨h1, h2, h3, _, _⟩ := trackerMatch_spec τ tracks dets hkeys
    exact ⟨h1, h2, h3⟩
  · intro cfg lsa1 lsa2 tracksP dets hkeys h1f h1s h1b h2f h2s h2b
    obtain ⟨h1, h2, h3, _⟩ :=
      kalmanAssign_spec cfg lsa1 lsa2 tracksP dets hkeys h1f h1s h1b h2f h2s h2b
    exact ⟨h1, h2, h3⟩

/-- Concrete active (non-lost) track with no Kalman state for the C1 witness. -/
def c1wcar : Car := { trackId := 1, bbox := (0, 0, 10, 10), centroids := [(5, 5)] }

/-- C1 witness: both parts of the 1:1 theorem applied to a concrete one-track,
one-detection instance (greedy matcher, and the Kalman variant with the
optimal-assignment oracle [(0, 0)] for Phase 1 and no Phase-2 rows). -/
theorem C1_one_to_one_witness :
    ((trackerMatch (3 / 10) [(1, c1wcar)] [((0, 0, 10, 10), 1 / 2)]).1.map Prod.fst).Nodup ∧
    ((kalmanAssign {} [(0, 0)] [] [(1, c1wcar)]
        [((0, 0, 10, 10), 1 / 2)]).2.map Prod.fst).Nodup :=
  ⟨(C1_one_to_one.1 (3 / 10) [(1, c1wcar)] [((0, 0, 10, 10), 1 / 2)] (by decide)).1,
   (C1_one_to_one.2 {} [(0, 0)] [] [(1, c1wcar)] [((0, 0, 10, 10), 1 / 2)]
      (by decide) (by decide) (by decide)
      (by intro rc hrc; rw [List.mem_singleton.mp hrc]; with_unfolding_all decide)
      (by decide) (by decide) (by intro rc hrc; simp at hrc)).1⟩

/-- Concrete lost track (hits = 5, lost = 1) for the C7 counterexample. -/
def c7car : Car :=
  { trackId := 1, bbox := (0, 0, 10, 10), hits := 5, lost := 1, centroids := [(5, 5)] }

/-- C7 counterexample: with `min_hits` configured to 6, Phase 2 nevertheless
commits a re-identification for a track with only 5 hits — the source filters
on the hardcoded `hits < 4` (improved_tracker.py line 595), not on the
configured `min_hits`, refuting the claim that the construction-time option
controls Phase-2 eligibility.  (The constant score 7/10 stands for the
composite heuristic score, which is attainable: e.g. a perfectly predicted
detection with no appearance histogram scores 0.45 + 0.075 + 0.1 + 0.1.) -/
theorem C7_counterexample :
    (occlusionMatch { minHits := 6 } (fun _ => false) (fun _ _ => 7 / 10)
        [(1, c7car)] [((0, 0, 10, 10), 1 / 2)]).1 = [(1, 0)] ∧
    c7car.hits < ({ minHits := 6 } : OccCfg).minHits ∧ 0 < c7car.lost :=
  ⟨by with_unfolding_all rfl, by decide, by decide⟩

/-- C7 (amended): Phase-2 re-identification considers a track only if its
lost counter is strictly positive; the hits minimum is a hardcoded constant —
hits ≥ 4 in the heuristic `OcclusionTracker` (which also requires lost ≤ 10)
and hits ≥ 2 in `KalmanTracker` — and the configured `min_hits` parameter
plays no role in Phase-2 eligibility.  Every committed pair is either a
Phase-1 match of an active (lost = 0) track or satisfies the hardcoded
Phase-2 constraints. -/
theorem C7_phase2_eligibility :
    (∀ (cfg : OccCfg) (staticO : StaticO) (scoreFn : Car → BBox → ℚ)
        (tracks : List (ℕ × Car)) (dets : List Det),
      ∀ p ∈ (occlusionMatch cfg staticO scoreFn tracks dets).1,
        (∃ c, (p.1, c) ∈ tracks ∧ c.lost = 0) ∨
        (∃ c, (p.1, c) ∈ tracks ∧ 0 < c.lost ∧ 4 ≤ c.hits ∧ c.lost ≤ 10)) ∧
    (∀ (cfg : KalCfg) (lsa1 lsa2 : List (ℕ × ℕ)) (tracksP : List (ℕ × Car))
        (dets : List Det),
      (tracksP.map Prod.fst).Nodup →
      (lsa1.map Prod.fst).Nodup → (lsa1.map Prod.snd).Nodup →
      (∀ rc ∈ lsa1, rc.1 < (tracksP.filter (fun p => p.2.lost = 0)).length) →
      (lsa2.map Prod.fst).Nodup → (lsa2.map Prod.snd).Nodup →
      (∀ rc ∈ lsa2, rc.1 < (tracksP.filter (fun p => 0 < p.2.lost)).length ∧
        rc.2 < ((List.range dets.length).filter
          (fun i => i ∉ (kalmanAssign cfg lsa1 lsa2 tracksP dets).1.map Prod.snd)).length) →
      ∀ p ∈ (kalmanAssign cfg lsa1 lsa2 tracksP dets).2,
        p ∈ (kalmanAssign cfg lsa1 lsa2 tracksP dets).1 ∨
        ∃ c, (p.1, c) ∈ tracksP ∧ 0 < c.lost ∧ 2 ≤ c.hits) := by
  constructor
  · intro cfg staticO scoreFn tracks dets
    exact (occlusionMatch_spec cfg staticO scoreFn tracks dets).2.2
  · intro cfg lsa1 lsa2 tracksP dets hkeys h1f h1s h1b h2f h2s h2b
    exact (kalmanAssign_spec cfg lsa1 lsa2 tracksP dets hkeys h1f h1s h1b h2f h2s h2b).2.2.2

/-- C7 witness: the amended eligibility theorem applied to the concrete
Phase-2 commitment of the counterexample run (heuristic variant) and to a
concrete Phase-1 commitment of the Kalman variant. -/
theorem C7_phase2_eligibility_witness :
    ((∃ c, ((1 : ℕ), c) ∈ [(1, c7car)] ∧ c.lost = 0) ∨
     (∃ c, ((1 : ℕ), c) ∈ [(1, c7car)] ∧ 0 < c.lost ∧ 4 ≤ c.hits ∧ c.lost ≤ 10)) ∧
    (((1, 0) : ℕ × ℕ) ∈ (kalmanAssign {} [(0, 0)] [] [(1, c1wcar)]
        [((0, 0, 10, 10), 1 / 2)]).1 ∨
     ∃ c, ((1 : ℕ), c) ∈ [(1, c1wcar)] ∧ 0 < c.lost ∧ 2 ≤ c.hits) := by
  have hocc : (occlusionMatch { minHits := 6 } (fun _ => false) (fun _ _ => 7 / 10)
      [(1, c7car)] [((0, 0, 10, 10), 1 / 2)]).1 = [(1, 0)] := by
    with_unfolding_all rfl
  have hkal : (kalmanAssign {} [(0, 0)] [] [(1, c1wcar)]
      [((0, 0, 10, 10), 1 / 2)]).2 = [(1, 0)] := by
    with_unfolding_all rfl
  constructor
  · exact C7_phase2_eligibility.1 { minHits := 6 } (fun _ => false) (fun _ _ => 7 / 10)
      [(1, c7car)] [((0, 0, 10, 10), 1 / 2)] (1, 0)
      (by rw [hocc]; exact List.mem_singleton.mpr rfl)
  · exact C7_phase2_eligibility.2 {} [(0, 0)] [] [(1, c1wcar)] [((0, 0, 10, 10), 1 / 2)]
      (by decide) (by decide) (by decide)
      (by intro rc hrc; rw [List.mem_singleton.mp hrc]; with_unfolding_all decide)
      (by decide) (by decide) (by intro rc hrc; simp at hrc) (1, 0)
      (by rw [hkal]; exact List.mem_singleton.mpr rfl)

/-- C10: in the heuristic `OcclusionTracker`, a track whose lost counter
exceeds 10 is never matched by either phase of `_match` (Phase 1 takes only
lost = 0 tracks, Phase 2 drops tracks with lost > 10), so on every subsequent
`update` it only coasts — its lost counter grows by exactly 1 and stays above
10 — until lost exceeds `buffer_frames`, at which point it is evicted. -/
theorem C10_stale_exclusion (cfg : OccCfg) (staticO : StaticO)
    (scoreFn : Car → BBox → ℚ) (histO : ℕ → ℕ → Option Hist)
    (seedHistO : ℕ → Option Hist) (tracks : List (ℕ × Car)) (nextId : ℕ)
    (dets : List Det) (tid : ℕ) (c : Car)
    (hkeys : (tracks.map Prod.fst).Nodup) (hid : ∀ p ∈ tracks, p.1 < nextId)
    (hpre : (tid, c) ∈ tracks) (hstale : 10 < c.lost) :
    tid ∉ (occlusionMatch cfg staticO scoreFn tracks dets).1.map Prod.fst ∧
    (c.lost + 1 ≤ cfg.bufferFrames →
      ∃ c', (tid, c') ∈
          (occlusionUpdate cfg staticO scoreFn histO seedHistO tracks nextId dets).1 ∧
        c'.lost = c.lost + 1 ∧ 10 < c'.lost) ∧
    (cfg.bufferFrames < c.lost + 1 →
      ∀ c', (tid, c') ∉
        (occlusionUpdate cfg staticO scoreFn histO seedHistO tracks nextId dets).1) := by
  obtain ⟨hasgN, hunTeq, hprov⟩ := occlusionMatch_spec cfg staticO scoreFn tracks dets
  have hnotin : tid ∉ (occlusionMatch cfg staticO scoreFn tracks dets).1.map Prod.fst := by
    intro hmem
    obtain ⟨p, hp, hpe⟩ := List.mem_map.mp hmem
    rcases hprov p hp with ⟨c0, hc0, hl0⟩ | ⟨c0, hc0, _, _, hl10⟩
    · rw [hpe] at hc0
      have := mem_unique_key hkeys hpre hc0
      rw [← this] at hl0
      omega
    · rw [hpe] at hc0
      have := mem_unique_key hkeys hpre hc0
      rw [← this] at hl10
      omega
  have hunTN : (occlusionMatch cfg staticO scoreFn tracks dets).2.1.Nodup := by
    rw [hunTeq]
    exact List.Nodup.filter _ hkeys
  have hunTmem : ∀ t2 ∈ tracks.map Prod.fst,
      (t2 ∈ (occlusionMatch cfg staticO scoreFn tracks dets).2.1 ↔
        t2 ∉ (occlusionMatch cfg staticO scoreFn tracks dets).1.map Prod.fst) := by
    intro t2 ht2
    rw [hunTeq, List.mem_filter]
    simp [ht2]
  have hspec := @runLifecycle_spec
    (fun tid c di =>
      c.applyDet (histO tid di) (dets.getD di dummyDet).1 (dets.getD di dummyDet).2)
    (fun id di => mkNewCar id (dets.getD di dummyDet) (seedHistO di))
    cfg.bufferFrames tracks
    (occlusionMatch cfg staticO scoreFn tracks dets).1
    (occlusionMatch cfg staticO scoreFn tracks dets).2.1
    (occlusionMatch cfg staticO scoreFn tracks dets).2.2 nextId
    (fun tid c di => applyDet_lost _ _ _ _) hkeys hasgN hunTN hunTmem hid
  obtain ⟨hall, hex⟩ := hspec.2 tid c hpre
  rw [if_neg hnotin] at hall hex
  refine ⟨hnotin, ?_, ?_⟩
  · intro hle
    obtain ⟨c', hc1, hc2⟩ := hex hle
    exact ⟨c', hc1, hc2, by omega⟩
  · intro hgt c' hc'
    have := hall c' hc'
    have h2 := hspec.1 (tid, c') hc'
    simp only at h2
    rw [this] at h2
    omega

/-- Concrete stale track (lost = 11) for the C10 witness. -/
def c10wcar : Car :=
  { trackId := 1, bbox := (0, 0, 10, 10), hits := 9, lost := 11, centroids := [(5, 5)] }

/-- C10 witness: the stale-exclusion theorem applied to a concrete track with
lost = 11 and a detection exactly on top of it: the track still only coasts to
lost = 12 and, since 12 ≤ buffer_frames = 25, stays in the table. -/
theorem C10_stale_exclusion_witness :
    ∃ c', (1, c') ∈ (occlusionUpdate {} (fun _ => false) (fun _ _ => 7 / 10)
        (fun _ _ => none) (fun _ => none) [(1, c10wcar)] 2
        [((0, 0, 10, 10), 1 / 2)]).1 ∧ c'.lost = c10wcar.lost + 1 ∧ 10 < c'.lost :=
  (C10_stale_exclusion {} (fun _ => false) (fun _ _ => 7 / 10) (fun _ _ => none)
    (fun _ => none) [(1, c10wcar)] 2 [((0, 0, 10, 10), 1 / 2)] 1 c10wcar
    (by decide) (by intro p hp; rw [List.mem_singleton.mp hp]; decide)
    (List.mem_singleton.mpr rfl) (by decide)).2.1 (by decide)

/-- Concrete chain of three detections for the C6 counterexample: d0 ~ d1 and
d1 ~ d2 satisfy the pairwise merge criteria, d0 ~ d2 do not. -/
def c6dets : List Det :=
  [((0, 0, 100, 100), 1 / 2), ((60, 0, 160, 100), 1 / 2), ((120, 0, 220, 100), 1 / 2)]

/-- C6 counterexample: the claim says the merger fuses the detections related
to the anchor TRANSITIVELY, which on this chain would produce the single union
box (0,0,220,100).  The source (improved_tracker.py lines 217-248) only
compares candidates against the anchor's own box, so d2 — related to d1 but
not to d0 — is left unmerged and the output has two boxes. -/
theorem C6_counterexample :
    mergeFragments {} c6dets =
      [((0, 0, 160, 100), 1 / 2), ((120, 0, 220, 100), 1 / 2)] ∧
    fragCriteria (0, 0, 100, 100) (60, 0, 160, 100) = true ∧
    fragCriteria (60, 0, 160, 100) (120, 0, 220, 100) = true ∧
    fragCriteria (0, 0, 100, 100) (120, 0, 220, 100) = false :=
  ⟨by with_unfolding_all rfl, by with_unfolding_all decide,
   by with_unfolding_all decide, by with_unfolding_all decide⟩

/-- C6 (amended): the Fragment Merger fuses, for each anchor in index order,
exactly the later unprocessed detections that satisfy the pairwise criteria
(IoU ≥ 0.05, area ratio > 0.3, centre distance < 0.8 · minimum box dimension)
DIRECTLY against the anchor — not transitively.  In particular two detections
meeting the criteria merge into their union box with the maximum confidence,
and a fragment_iou of 0 disables the merger, returning the input unchanged. -/
theorem C6_fragment_merger :
    (∀ (cfg : OccCfg) (dets : List Det), cfg.fragmentIou = 0 →
      mergeFragments cfg dets = dets) ∧
    (∀ (cfg : OccCfg) (b1 b2 : BBox) (c1 c2 : ℚ), 0 < cfg.fragmentIou →
      fragCriteria b1 b2 = true →
      mergeFragments cfg [(b1, c1), (b2, c2)] =
        [((min b1.1 b2.1, min b1.2.1 b2.2.1, max b1.2.2.1 b2.2.2.1,
            max b1.2.2.2 b2.2.2.2), max c1 c2)]) := by
  constructor
  · intro cfg dets h0
    unfold mergeFragments
    rw [if_pos (Or.inr (le_of_eq h0))]
  · intro cfg b1 b2 c1 c2 hpos hcrit
    have hcond : ¬([(b1, c1), (b2, c2)].length ≤ 1 ∨ cfg.fragmentIou ≤ 0) := by
      push_neg
      exact ⟨by simp, hpos⟩
    unfold mergeFragments
    rw [if_neg hcond]
    rw [show List.range [(b1, c1), (b2, c2)].length = [0, 1] from rfl]
    unfold mergeOuter
    rw [show List.range [(b1, c1), (b2, c2)].length = [0, 1] from rfl]
    rw [if_neg (List.not_mem_nil 0)]
    rw [show [(b1, c1), (b2, c2)].get? 0 = some (b1, c1) from rfl]
    dsimp only
    simp [List.filter, List.filterMap, mergeOuter, unionBox, hcrit]

/-- C6 witness: the amended merger theorem applied to a disabled
configuration (fragment_iou = 0) and to a concrete overlapping pair
(IoU = 0.25, equal areas, centre distance 60 < 0.8·100). -/
theorem C6_fragment_merger_witness :
    mergeFragments { fragmentIou := 0 } c6dets = c6dets ∧
    mergeFragments {} [(((0, 0, 100, 100) : BBox), (1 / 2 : ℚ)), ((60, 0, 160, 100), 3 / 5)] =
      [((min (0 : ℤ) 60, min (0 : ℤ) 0, max (100 : ℤ) 160, max (100 : ℤ) 100),
        max (1 / 2 : ℚ) (3 / 5))] :=
  ⟨C6_fragment_merger.1 { fragmentIou := 0 } c6dets rfl,
   C6_fragment_merger.2 {} (0, 0, 100, 100) (60, 0, 160, 100) (1 / 2) (3 / 5)
     (by norm_num) (by with_unfolding_all decide)⟩

/-- Concrete moving track for the C5 witness. -/
def c5wcar : Car :=
  { trackId := 1, bbox := (0, 0, 8, 8), centroids := [(0, 0), (2, 2), (4, 4)] }

/-- C5 witness: the prediction theorem applied to a concrete non-static track
with three centroids and frames_ahead = 3 (average velocity (2,2), prediction
(10,10)), and the frames_ahead formula applied to a concrete configuration. -/
theorem C5_linear_prediction_witness :
    predictPosition (fun _ => false) c5wcar 3 = (10, 10) ∧
    scoreFramesAhead { skipFrames := 1 } { trackId := 2, bbox := (0, 0, 1, 1), lost := 4 } = 8 := by
  constructor
  · rw [C5_linear_prediction.1 (fun _ => false) c5wcar 3 (by decide)]
    with_unfolding_all decide
  · rw [C5_linear_prediction.2 { skipFrames := 1 }
      { trackId := 2, bbox := (0, 0, 1, 1), lost := 4 }]
    decide

/-- C9: when the innovation covariance S = H·P·Hᵀ + R of
`KalmanTracker._mahalanobis_distance` is singular (det S = 0, the
`np.linalg.LinAlgError` branch of the source), the distance computation
returns the normalised-Euclidean fallback — the predicted-to-detected centre
distance divided by 50 (`MDist.fb` stores the squared centre distance; its
comparison `MDist.ltQ` divides by 50) — rather than propagating the
singularity: for every track holding a Kalman filter that passes the physical
distance and size-ratio gates, a singular S yields `some (.fb d²_euclidean)`. -/
theorem C9_singular_fallback (t : Car) (db : BBox) (kf : KF)
    (hkf : t.kalmanFilter = some kf)
    (hphys : sqrtGt (((bboxCenter db).1 - kalH.mulVec kf.x 0) ^ 2 +
        ((bboxCenter db).2 - kalH.mulVec kf.x 1) ^ 2)
        (min (150 + (t.lost : ℚ) * 15) 400) = false)
    (hsize : ¬(3 < max (((db.2.2.1 - db.1 : ℤ) : ℚ)) (kalH.mulVec kf.x 2) /
          max 1 (min (((db.2.2.1 - db.1 : ℤ) : ℚ)) (kalH.mulVec kf.x 2)) ∨
        3 < max (((db.2.2.2 - db.2.1 : ℤ) : ℚ)) (kalH.mulVec kf.x 3) /
          max 1 (min (((db.2.2.2 - db.2.1 : ℤ) : ℚ)) (kalH.mulVec kf.x 3))))
    (hsing : (sMatrix kf).det = 0) :
    mahalanobisDistance t db =
      some (MDist.fb (((bboxCenter db).1 - kalH.mulVec kf.x 0) ^ 2 +
        ((bboxCenter db).2 - kalH.mulVec kf.x 1) ^ 2)) := by
  unfold mahalanobisDistance
  rw [hkf]
  dsimp only
  rw [hphys]
  simp only [Bool.false_eq_true, if_false]
  rw [if_neg hsize, if_pos hsing]

/-- Concrete Kalman state for the C9 witness: the covariance P is chosen so
that H·P·Hᵀ = −R, making S the zero matrix (singular). -/
def c9kf : KF :=
  { x := ![5, 5, 10, 10, 0, 0, 0]
    P := Matrix.of
      ![![-5, 0, 0, 0, 0, 0, 0],
        ![0, -5, 0, 0, 0, 0, 0],
        ![0, 0, -15, 0, 0, 0, 0],
        ![0, 0, 0, -15, 0, 0, 0],
        ![0, 0, 0, 0, 0, 0, 0],
        ![0, 0, 0, 0, 0, 0, 0],
        ![0, 0, 0, 0, 0, 0, 0]] }

/-- Concrete track carrying the singular-covariance filter for the C9
witness. -/
def c9car : Car := { trackId := 1, bbox := (0, 0, 10, 10), kalmanFilter := some c9kf }

/-- C9 witness: the singular-S fallback theorem applied to a concrete track
whose innovation covariance is the zero matrix and whose predicted centre
coincides with the detection centre (fallback payload 0). -/
theorem C9_singular_fallback_witness :
    mahalanobisDistance c9car (0, 0, 10, 10) = some (MDist.fb 0) := by
  have hS : sMatrix c9kf = 0 := by with_unfolding_all decide
  have hdet : (sMatrix c9kf).det = 0 := by
    rw [hS]
    exact Matrix.det_zero ⟨0⟩
  rw [C9_singular_fallback c9car (0, 0, 10, 10) c9kf rfl
    (by with_unfolding_all decide) (by with_unfolding_all decide) hdet]
  with_unfolding_all decide

end Tracking
